import Mathlib

/-!
Verification of the GGEngine `.gg` script toolchain (`src/parser/parse.py`,
`src/parser/convert.py`, `src/parser/language_rules.py`).

Text is modelled as `List Char`.  Python string operations used by the source
(`str.split(sep)`, `str.split()`, slicing, `in`, `re.sub` with the two concrete
patterns of `parse.py`, f-string `repr` of lists, `eval` of list literals and
`str.format`) are embedded as executable Lean functions.  Recursive scanners
use an explicit fuel argument (always instantiated with more fuel than the
input length) so that every definition is a computable structural recursion;
fuel-irrelevance lemmas recover the natural unfolding equations.
-/

namespace GG

/-- The single-quote character (ASCII 39). -/
def squote : Char := Char.ofNat 39

/-- The double-quote character. -/
def dquote : Char := '"'

/-- The backslash character. -/
def bslash : Char := '\\'

/-- Whitespace as recognised by Python `str.split()` / `str.isspace()`
(CPython's `Py_UNICODE_ISSPACE`): the ASCII control whitespace `\t` `\n` `\v`
`\f` `\r` and the file/group/record/unit separators `\x1c`-`\x1f`, the space,
next line (U+0085), no-break space (U+00A0), ogham space mark (U+1680), the
typographic spaces U+2000-U+200A, the line and paragraph separators U+2028 and
U+2029, narrow no-break space (U+202F), medium mathematical space (U+205F) and
ideographic space (U+3000). -/
def pySpace (c : Char) : Bool :=
  let n := c.toNat
  (0x09 ≤ n && n ≤ 0x0D) || (0x1C ≤ n && n ≤ 0x1F) || n = 0x20 || n = 0x85 ||
    n = 0xA0 || n = 0x1680 || (0x2000 ≤ n && n ≤ 0x200A) || n = 0x2028 ||
    n = 0x2029 || n = 0x202F || n = 0x205F || n = 0x3000

/-- `begins sep l` holds when `sep` is an initial run of `l`. -/
def begins : List Char → List Char → Bool
  | [], _ => true
  | _ :: _, [] => false
  | s :: ss, c :: cs => s = c && begins ss cs

/-- First occurrence of `sep` in `l`: returns the part before the match and the
part after it (Python `str.find` / the scanning done by `str.split`). -/
def breakSep (sep : List Char) : List Char → Option (List Char × List Char)
  | [] => none
  | c :: cs =>
    if begins sep (c :: cs) then some ([], (c :: cs).drop sep.length)
    else (breakSep sep cs).map (fun p => (c :: p.1, p.2))

/-- Python's substring test `sep in l`. -/
def hasSub (sep l : List Char) : Bool := (breakSep sep l).isSome

/-- Fuelled worker for Python `str.split(sep)` (`sep` non-empty). -/
def pySplitOnF : Nat → List Char → List Char → List (List Char)
  | 0, _, l => [l]
  | n + 1, sep, l =>
    match breakSep sep l with
    | none => [l]
    | some (a, b) => a :: pySplitOnF n sep b

/-- Python `str.split(sep)` for a non-empty separator `sep`. -/
def pySplitOn (sep l : List Char) : List (List Char) := pySplitOnF (l.length + 1) sep l

/-- Fuelled worker for Python `str.split()` (whitespace split, empties dropped). -/
def pySplitWsF : Nat → List Char → List (List Char)
  | 0, _ => []
  | n + 1, l =>
    match l with
    | [] => []
    | c :: cs =>
      if pySpace c then pySplitWsF n cs
      else (c :: cs).takeWhile (fun d => !pySpace d) ::
        pySplitWsF n ((c :: cs).dropWhile (fun d => !pySpace d))

/-- Python `str.split()`: split on runs of whitespace, dropping empty pieces. -/
def pySplitWs (l : List Char) : List (List Char) := pySplitWsF (l.length + 1) l

/-- Fuelled worker for Python `file.readlines()` over in-memory text:
each line keeps its trailing newline; a last line without a newline is kept. -/
def pyReadlinesF : Nat → List Char → List (List Char)
  | 0, _ => []
  | n + 1, l =>
    match breakSep ['\n'] l with
    | none => if l = [] then [] else [l]
    | some (a, b) => (a ++ ['\n']) :: pyReadlinesF n b

/-- Python `file.readlines()` applied to the full text of the file. -/
def pyReadlines (l : List Char) : List (List Char) := pyReadlinesF (l.length + 1) l

/-- Python `sep.join(xs)`. -/
def pyJoin (sep : List Char) : List (List Char) → List Char
  | [] => []
  | [t] => t
  | t :: rest => t ++ sep ++ pyJoin sep rest

/-- Python slice `s[1:-1]`. -/
def sliceMid (l : List Char) : List Char := (l.drop 1).dropLast

section Strip

/-!
The comment-stripping regex of `parse.py`:

  `(".*?(?<!\\)"|'.*?(?<!\\)')|(/\*.*?\*/|//[^\r\n]*$)`  with `MULTILINE | DOTALL`,

substituted by `""` when the comment group matched and by the quoted group when
the quote group matched.  `re.sub` scans left to right; at a given position the
alternatives are tried in order.  The first two alternatives start with a quote
character, the third with `/*` and the fourth with `//`, so at most one
alternative can start at any position.
-/

/-- Lazy match of `.*?(?<!\\)q` (DOTALL): find the first occurrence of the
quote `q` whose preceding character is not a backslash; `prev` is the character
just before the scanned list.  Returns the matched interior and the rest. -/
def findCloseQ (q : Char) : Char → List Char → Option (List Char × List Char)
  | _, [] => none
  | prev, c :: cs =>
    if c = q && prev != bslash then some ([], cs)
    else (findCloseQ q c cs).map (fun p => (c :: p.1, p.2))

/-- Lazy match of `.*?\*/` (DOTALL): the rest of the text after the first
closing `*/`, if any. -/
def findBlockEnd : List Char → Option (List Char)
  | [] => none
  | c :: cs => if c = '*' && begins ['/'] cs then some (cs.drop 1) else findBlockEnd cs

/-- Whether the text contains an occurrence of the two-character closing
delimiter `*/` (so `findBlockEnd` succeeds somewhere). -/
def hasSS : List Char → Bool
  | [] => false
  | c :: cs => (c = '*' && begins ['/'] cs) || hasSS cs

/-- Match of `[^\r\n]*$` (MULTILINE) after a `//`: greedily take the run of
non-CR/LF characters; the match succeeds only if the run stops at a newline or
at the end of the text (it fails when a carriage return stops it). -/
def lineCommentEnd (cs : List Char) : Option (List Char) :=
  let rest := cs.dropWhile (fun c => !(c = '\n' || c = '\r'))
  if rest = [] then some []
  else if rest.head? = some '\n' then some rest
  else none

/-- What `re.sub`'s scan does at the current position: a quote alternative
matched (`quoteRun q body rest`: the run `q :: body ++ [q]` is kept verbatim
and scanning resumes at `rest`), a comment alternative matched
(`comment rest`: the match is deleted and scanning resumes at `rest`), or no
alternative matched (`plain c rest`: the character `c` is kept and scanning
resumes at `rest`). -/
inductive ScanStep where
  | quoteRun (q : Char) (body rest : List Char)
  | comment (rest : List Char)
  | plain (c : Char) (rest : List Char)
deriving DecidableEq, Repr

/-- One step of `re.sub`'s left-to-right scan with the four alternatives of
`__comments_pattern` tried in order (the two quote alternatives, then `/* */`,
then `// ... $`; their leading characters are mutually exclusive, so at most
one alternative can start at a given position). -/
def scanStep : List Char → Option ScanStep
  | [] => none
  | c :: cs =>
    if c = dquote || c = squote then
      match findCloseQ c c cs with
      | some (body, rest) => some (.quoteRun c body rest)
      | none => some (.plain c cs)
    else if c = '/' && begins ['*'] cs then
      match findBlockEnd (cs.drop 1) with
      | some rest => some (.comment rest)
      | none => some (.plain c cs)
    else if c = '/' && begins ['/'] cs then
      match lineCommentEnd (cs.drop 1) with
      | some rest => some (.comment rest)
      | none => some (.plain c cs)
    else some (.plain c cs)

/-- The continuation point of a scan step. -/
def stepRest : ScanStep → List Char
  | .quoteRun _ _ rest => rest
  | .comment rest => rest
  | .plain _ rest => rest

/-- Fuelled worker for the comment-stripping substitution. -/
def stripCF : Nat → List Char → List Char
  | 0, l => l
  | n + 1, l =>
    match scanStep l with
    | none => []
    | some (.quoteRun q body rest) => q :: body ++ q :: stripCF n rest
    | some (.comment rest) => stripCF n rest
    | some (.plain c rest) => c :: stripCF n rest

/-- `text_without_comments` of `parse.py`: one `re.sub` pass of the
comment-stripping regex over the whole text. -/
def stripC (l : List Char) : List Char := stripCF (l.length + 1) l

end Strip

/-- The intermediate Statement produced by the Normalizer (`parse.py`):
`var`-lines (Construct) and `method`-lines (Invoke). -/
inductive Stmt where
  | construct (var_type var_name class_name : List Char) (args : List (List Char))
  | invoke (var_name method_name : List Char) (args : List (List Char))
deriving DecidableEq, Repr

/-- The separator ` - ` of `parse.py`. -/
def sepTyName : List Char := " - ".toList

/-- The declaration marker ` ::= ` of `parse.py`. -/
def sepDecl : List Char := " ::= ".toList

/-- The call marker ` -> ` of `parse.py`. -/
def sepCall : List Char := " -> ".toList

/-- The marker ` (` that terminates a class or method name in `parse.py`. -/
def sepParen : List Char := " (".toList

/-- `re.sub(__args_pattern, "", s)` where `__args_pattern = ^\(\)$` (DOTALL):
the anchored pattern can only match the whole string `()` (or, because Python's
`$` also matches before a final newline, the prefix of `()\n`). -/
def subEmptyParens (l : List Char) : List Char :=
  if l = ['(', ')'] then [] else if l = ['(', ')', '\n'] then ['\n'] else l

/-- The `args` computation shared by both branches of `parse.py` (lines 73-75
and 78-80): from `rest`, the part of the line after the first ` ::= ` (resp.
` -> `), it takes `args_string := " ".join(rest.split()[1:])`, and returns
`[] if not args_string else re.sub(pattern, "", args_string[1:-1]).split(" ")`. -/
def extractArgs (rest : List Char) : List (List Char) :=
  let args_string := pyJoin [' '] ((pySplitWs rest).drop 1)
  if args_string = [] then []
  else pySplitOn [' '] (subEmptyParens (sliceMid args_string))

/-- Result of processing one comment-stripped, non-empty line of the input. -/
inductive LineResult where
  | stmt (s : Stmt)
  | skip
  | indexError
deriving DecidableEq, Repr

/-- The per-line classification and field extraction of `parse.py` lines 69-81:
a line containing ` ::= ` is a Construct (a line without ` - ` raises
`IndexError` there), otherwise a line containing ` -> ` is an Invoke, and any
other line is silently ignored. -/
def classifyLine (line : List Char) : LineResult :=
  if hasSub sepDecl line then
    match (pySplitOn sepTyName line).get? 1 with
    | none => .indexError
    | some afterTy =>
      match (pySplitOn sepDecl line).get? 1 with
      | none => .indexError
      | some afterDecl =>
        let var_type := (pySplitOn sepTyName line).headD []
        let var_name := (pySplitOn sepDecl afterTy).headD []
        let class_name := (pySplitOn sepParen afterDecl).headD []
        .stmt (.construct var_type var_name class_name (extractArgs afterDecl))
  else if hasSub sepCall line then
    match (pySplitOn sepCall line).get? 1 with
    | none => .indexError
    | some afterCall =>
      let var_name := (pySplitOn sepCall line).headD []
      let method_name := (pySplitOn sepParen afterCall).headD []
      .stmt (.invoke var_name method_name (extractArgs afterCall))
  else .skip

/-- A terminal failure of the Normalizer: `badLine n` is the reported
`SyntaxError at line n`; `valueErr` is the uncaught `ValueError` that
`full_text.split("\n").index(line)` raises when the stripped line's text does
not occur verbatim in the original input. -/
inductive Failure where
  | badLine (n : Nat)
  | valueErr
deriving DecidableEq, Repr

/-- The processing loop of `parse.py` lines 68-85 over the filtered code
lines.  On `IndexError` it reports 1 plus the index of the first line of the
*original* text equal to the offending line. -/
def runLines (origLines : List (List Char)) : List (List Char) → Except Failure (List Stmt)
  | [] => .ok []
  | line :: rest =>
    match classifyLine line with
    | .skip => runLines origLines rest
    | .stmt s => (runLines origLines rest).map (fun out => s :: out)
    | .indexError =>
      match origLines.findIdx? (fun l => l = line) with
      | some i => .error (.badLine (i + 1))
      | none => .error .valueErr

/-- The Normalizer (`parse.py` lines 63-85): strip comments in one pass over
the full text, split on newlines, drop empty lines, and classify each line in
order. -/
def normalize (text : List Char) : Except Failure (List Stmt) :=
  let stripped := stripC text
  let codeLines := (pySplitOn ['\n'] stripped).filter (fun l => l ≠ [])
  runLines (pySplitOn ['\n'] text) codeLines

section Serialize

/-- Python `repr` of a string, modelled on printable ASCII content: the string
is rendered in single quotes, or in double quotes when it contains a single
quote but no double quote; backslashes, the delimiting quote, and the control
characters `\n`, `\r`, `\t` are escaped. -/
def pyReprStr (s : List Char) : List Char :=
  let q : Char := if squote ∈ s && !(dquote ∈ s) then dquote else squote
  let esc : Char → List Char := fun c =>
    if c = bslash then [bslash, bslash]
    else if c = q then [bslash, q]
    else if c = '\n' then [bslash, 'n']
    else if c = '\r' then [bslash, 'r']
    else if c = '\t' then [bslash, 't']
    else [c]
  q :: (s.map esc).flatten ++ [q]

/-- Python `repr` (= `str`) of a list of strings, as interpolated by the
f-strings of `parse.py`: `[` + `, `-joined `repr`s + `]`. -/
def pyReprList (xs : List (List Char)) : List Char :=
  '[' :: pyJoin (", ".toList) (xs.map pyReprStr) ++ [']']

/-- One output line of `parse.py` (lines 76 and 81): the f-string
`f"var {var_type} {var_name} {class_name} {args}\n"`, resp.
`f"method {var_name} {method_name} {args}\n"`. -/
def serializeStmt : Stmt → List Char
  | .construct vt vn cn args =>
      "var ".toList ++ vt ++ ' ' :: vn ++ ' ' :: cn ++ ' ' :: pyReprList args ++ ['\n']
  | .invoke vn mn args =>
      "method ".toList ++ vn ++ ' ' :: mn ++ ' ' :: pyReprList args ++ ['\n']

/-- The whole intermediate text written by `output_file.writelines(output)`. -/
def serializeStmts (stmts : List Stmt) : List Char := (stmts.map serializeStmt).flatten

end Serialize

section EvalLit

/-- Fuelled reader of a Python single- or double-quoted string literal body
(after the opening quote `q`): processes the escapes `\\`, `\'`, `\"`, `\n`,
`\r`, `\t` (an unknown escape keeps the backslash, as in Python), and stops at
the closing quote.  Returns the decoded string and the rest of the input. -/
def readStrBodyF (q : Char) : Nat → List Char → Option (List Char × List Char)
  | 0, _ => none
  | _, [] => none
  | n + 1, c :: cs =>
    if c = q then some ([], cs)
    else if c = bslash then
      match cs with
      | [] => none
      | e :: cs2 =>
        let dec : List Char :=
          if e = bslash || e = squote || e = dquote then [e]
          else if e = 'n' then ['\n']
          else if e = 'r' then ['\r']
          else if e = 't' then ['\t']
          else [bslash, e]
        (readStrBodyF q n cs2).map (fun p => (dec ++ p.1, p.2))
    else (readStrBodyF q n cs).map (fun p => (c :: p.1, p.2))

/-- Fuelled reader of the element list of a Python list-of-strings literal,
expecting an element or `]` next.  `Models from the source's use of `eval`:
the intermediate lines of `parse.py` only ever hold list-of-strings literals,
and `eval` of a malformed fragment raises `SyntaxError` (here `none`). -/
def readListElemsF : Nat → List Char → Option (List (List Char) × List Char)
  | 0, _ => none
  | n + 1, l =>
    match l.dropWhile pySpace with
    | [] => none
    | c :: cs =>
      if c = ']' then some ([], cs)
      else if c = squote || c = dquote then
        match readStrBodyF c (cs.length + 1) cs with
        | none => none
        | some (s, rest) =>
          match rest.dropWhile pySpace with
          | ']' :: rest2 => some ([s], rest2)
          | ',' :: rest2 => (readListElemsF n rest2).map (fun p => (s :: p.1, p.2))
          | _ => none
      else none

/-- `list(eval(s))` as used by `convert.py` on argument fields: succeeds
exactly on a (whitespace-padded) Python list-of-strings literal and returns
its elements; any other input — in particular a truncated literal such as
`['x',` — is a failure (Python raises and the script dies). -/
def pyEvalStrList (s : List Char) : Option (List (List Char)) :=
  match s.dropWhile pySpace with
  | '[' :: rest =>
    match readListElemsF (rest.length + 1) rest with
    | some (xs, tail) => if tail.dropWhile pySpace = [] then some xs else none
    | none => none
  | _ => none

end EvalLit

section Render

/-- A Rule Set of `language_rules.py`: prologue text, epilogue text, and the
two format templates (`rule["code"]["var"]` and `rule["code"]["method"]`). -/
structure RuleSet where
  start : List Char
  varTpl : List Char
  methodTpl : List Char
  endTxt : List Char
deriving DecidableEq, Repr

/-- Fuelled worker for Python `str.format` with named fields: scans the
template, replaces `{name}` by the bound value (an unbound name is a
`KeyError`, modelled as `none`), and decodes `{{` and `}}`; a stray brace is
an error.  Inserted text is not rescanned, as in Python. -/
def pyFormatF (binds : List (List Char × List Char)) : Nat → List Char → Option (List Char)
  | 0, l => if l = [] then some [] else none
  | n + 1, l =>
    match l with
    | [] => some []
    | '{' :: '{' :: rest => (pyFormatF binds n rest).map (fun r => '{' :: r)
    | '}' :: '}' :: rest => (pyFormatF binds n rest).map (fun r => '}' :: r)
    | '}' :: _ => none
    | '{' :: rest =>
      let name := rest.takeWhile (fun c => c ≠ '}')
      match rest.dropWhile (fun c => c ≠ '}') with
      | '}' :: rest2 =>
        match binds.lookup name with
        | some v => (pyFormatF binds n rest2).map (fun r => v ++ r)
        | none => none
      | _ => none
    | c :: rest => (pyFormatF binds n rest).map (fun r => c :: r)

/-- Python `template.format(name=value, ...)` restricted to named fields. -/
def pyFormat (binds : List (List Char × List Char)) (tpl : List Char) : Option (List Char) :=
  pyFormatF binds (tpl.length + 1) tpl

/-- The built-in `cpp` Rule Set of `language_rules.py`. -/
def cppRule : RuleSet where
  start := "#include <GGEngine/headers/all.h>\nusing namespace gg;\n\nclass Game \x7b\npublic:".toList
  varTpl := "\n\t{var_type}* {var_name} = new {class_name}({args});".toList
  methodTpl := "\n\t{var_name}->{method_name}({args});".toList
  endTxt := "\n\x7d;".toList

/-- The Rule Set registry `rules` of `language_rules.py`. -/
def rules : List (List Char × RuleSet) := [("cpp".toList, cppRule)]

/-- A terminal failure of the Renderer (`convert.py`): an unknown target
language, an `IndexError` on a malformed intermediate line, a `SyntaxError`
from `eval` of a malformed argument literal, or a `KeyError` from `format`. -/
inductive RenderFailure where
  | unsupportedTarget
  | indexErr
  | evalErr
  | keyErr
deriving DecidableEq, Repr

/-- The reading-and-formatting loop of `convert.py` lines 44-66 over the lines
of the intermediate file, producing the concatenated converted strings. -/
def convLines (rule : RuleSet) : List (List Char) → Except RenderFailure (List Char)
  | [] => .ok []
  | line :: rest =>
    let ws := pySplitWs line
    match ws.get? 0 with
    | none => .error .indexErr
    | some code_type =>
      if code_type = "var".toList then
        match ws.get? 1, ws.get? 2, ws.get? 3 with
        | some var_type, some var_name, some class_name =>
          match pyEvalStrList (pyJoin [' '] (ws.drop 4)) with
          | none => .error .evalErr
          | some args =>
            match pyFormat [("var_type".toList, var_type), ("var_name".toList, var_name),
                ("class_name".toList, class_name),
                ("args".toList, pyJoin (", ".toList) args)] rule.varTpl with
            | none => .error .keyErr
            | some s => (convLines rule rest).map (fun out => s ++ out)
        | _, _, _ => .error .indexErr
      else if code_type = "method".toList then
        match ws.get? 1, ws.get? 2, ws.get? 3 with
        | some var_name, some method_name, some argLit =>
          match pyEvalStrList argLit with
          | none => .error .evalErr
          | some args =>
            match pyFormat [("var_name".toList, var_name), ("method_name".toList, method_name),
                ("args".toList, pyJoin (", ".toList) args)] rule.methodTpl with
            | none => .error .keyErr
            | some s => (convLines rule rest).map (fun out => s ++ out)
        | _, _, _ => .error .indexErr
      else convLines rule rest

/-- The Renderer entry point (`convert.py` lines 26-67): look up the Rule Set
(an unknown identifier fails before the input is read or any output is
produced), then fold the conversion over the intermediate lines between the
Rule Set's `start` and `end` texts. -/
def convertText (lang : List Char) (fileText : List Char) : Except RenderFailure (List Char) :=
  match rules.lookup lang with
  | none => .error .unsupportedTarget
  | some rule => (convLines rule (pyReadlines fileText)).map
      (fun body => rule.start ++ body ++ rule.endTxt)

/-- The field reconstruction of `convert.py`'s reading loop without the
template substitution: the deserializer of the intermediate text back into a
Statement sequence (fields from `line.split()`, argument list from `eval`). -/
def readStmts (fileText : List Char) : Except RenderFailure (List Stmt) :=
  go (pyReadlines fileText)
where
  /-- Per-line deserialization, one line at a time. -/
  go : List (List Char) → Except RenderFailure (List Stmt)
  | [] => .ok []
  | line :: rest =>
    let ws := pySplitWs line
    match ws.get? 0 with
    | none => .error .indexErr
    | some code_type =>
      if code_type = "var".toList then
        match ws.get? 1, ws.get? 2, ws.get? 3 with
        | some var_type, some var_name, some class_name =>
          match pyEvalStrList (pyJoin [' '] (ws.drop 4)) with
          | none => .error .evalErr
          | some args => (go rest).map (fun out => .construct var_type var_name class_name args :: out)
        | _, _, _ => .error .indexErr
      else if code_type = "method".toList then
        match ws.get? 1, ws.get? 2, ws.get? 3 with
        | some var_name, some method_name, some argLit =>
          match pyEvalStrList argLit with
          | none => .error .evalErr
          | some args => (go rest).map (fun out => .invoke var_name method_name args :: out)
        | _, _, _ => .error .indexErr
      else go rest

/-- Per-statement template substitution of the Renderer, at the Statement
level: the `format` calls of `convert.py` with the fields of the statement and
`", ".join(args)`. -/
def renderStmt (rule : RuleSet) : Stmt → Option (List Char)
  | .construct vt vn cn args =>
      pyFormat [("var_type".toList, vt), ("var_name".toList, vn), ("class_name".toList, cn),
        ("args".toList, pyJoin (", ".toList) args)] rule.varTpl
  | .invoke vn mn args =>
      pyFormat [("var_name".toList, vn), ("method_name".toList, mn),
        ("args".toList, pyJoin (", ".toList) args)] rule.methodTpl

/-- The accumulation of converted strings over a Statement sequence. -/
def renderBody (rule : RuleSet) : List Stmt → Option (List Char)
  | [] => some []
  | s :: rest =>
    match renderStmt rule s, renderBody rule rest with
    | some a, some b => some (a ++ b)
    | _, _ => none

/-- Rendering a Statement sequence with a Rule Set: `start`, then the
converted string of each statement in order, then `end`. -/
def renderSeq (rule : RuleSet) (stmts : List Stmt) : Option (List Char) :=
  (renderBody rule stmts).map (fun body => rule.start ++ body ++ rule.endTxt)

end Render

/-- The two statements that `T - m ::= C (1 2)` / `m -> go ()` actually
normalize to: note the Invoke's `args` is `[""]`, not `[]`. -/
def exTwoStmts : List Stmt :=
  [.construct ("T".toList) ("m".toList) ("C".toList) [("1".toList), ("2".toList)],
   .invoke ("m".toList) ("go".toList) [[]]]

/-- A character allowed inside a well-formed field or argument token for the
argument-order theorem of claim C8: not whitespace and not one of the
characters from which the line markers ` - `, ` ::= `, ` -> ` are built. -/
def okTokChar (c : Char) : Bool := !pySpace c && c ≠ ':' && c ≠ '-' && c ≠ '>'

/-- A well-formed field or argument token: non-empty with allowed characters. -/
@[reducible] def okTok (t : List Char) : Prop := t ≠ [] ∧ ∀ c ∈ t, okTokChar c = true

/-!  ## Basic lemmas about the embedded Python primitives  -/

theorem begins_append (sep t : List Char) : begins sep (sep ++ t) = true := by
  induction sep with
  | nil => simp [begins]
  | cons c cs ih => simp [begins, ih]

theorem begins_exists {sep l : List Char} (h : begins sep l = true) :
    l = sep ++ l.drop sep.length := by
  induction sep generalizing l with
  | nil => simp
  | cons s ss ih =>
    cases l with
    | nil => simp [begins] at h
    | cons c cs =>
      simp only [begins, Bool.and_eq_true, decide_eq_true_eq] at h
      obtain ⟨rfl, h2⟩ := h
      simpa using ih h2

theorem breakSep_some_structure {sep l a b : List Char}
    (h : breakSep sep l = some (a, b)) : l = a ++ sep ++ b := by
  induction l generalizing a with
  | nil => simp [breakSep] at h
  | cons c cs ih =>
    by_cases hb : begins sep (c :: cs) = true
    · rw [breakSep, if_pos hb] at h
      obtain ⟨rfl, rfl⟩ := by simpa using h
      simpa using begins_exists hb
    · rw [breakSep, if_neg hb] at h
      cases hin : breakSep sep cs with
      | none => rw [hin] at h; simp at h
      | some p =>
        rw [hin] at h
        obtain ⟨rfl, rfl⟩ : (c :: p.1, p.2) = (a, b) := by simpa using h
        simpa using ih (by simpa using hin)

theorem breakSep_some_length {sep l a b : List Char} (hsep : sep ≠ [])
    (h : breakSep sep l = some (a, b)) : b.length < l.length := by
  have hst := breakSep_some_structure h
  have : 1 ≤ sep.length := by
    cases sep with
    | nil => exact absurd rfl hsep
    | cons x xs => simp
  subst hst
  simp only [List.length_append]
  omega

theorem breakSep_none_of_not_mem {sep l : List Char} {c : Char}
    (hc : c ∈ sep) (hl : c ∉ l) : breakSep sep l = none := by
  induction l with
  | nil => rfl
  | cons x xs ih =>
    have hx : begins sep (x :: xs) = false := by
      by_contra hb
      have hb' : begins sep (x :: xs) = true := by
        cases h' : begins sep (x :: xs) with
        | false => exact absurd h' hb
        | true => rfl
      have := begins_exists hb'
      apply hl
      rw [this]
      exact List.mem_append_left _ hc
    rw [breakSep, hx]
    simp only [Bool.false_eq_true, if_false]
    rw [ih (fun h => hl (List.mem_cons_of_mem _ h))]
    rfl

theorem pySplitOnF_fuel {sep : List Char} :
    ∀ {n m : Nat} {l : List Char}, l.length < n → l.length < m → sep ≠ [] →
      pySplitOnF n sep l = pySplitOnF m sep l := by
  intro n
  induction n with
  | zero => intro m l h; omega
  | succ n ih =>
    intro m l hn hm hsep
    cases m with
    | zero => omega
    | succ m =>
      show (match breakSep sep l with
            | none => [l]
            | some (a, b) => a :: pySplitOnF n sep b) =
          (match breakSep sep l with
            | none => [l]
            | some (a, b) => a :: pySplitOnF m sep b)
      cases hbk : breakSep sep l with
      | none => rfl
      | some p =>
        obtain ⟨a, b⟩ := p
        have hlt := breakSep_some_length hsep hbk
        simp only
        exact congrArg _ (@ih m b (by omega) (by omega) hsep)

theorem pySplitOn_eq (sep : List Char) (hsep : sep ≠ []) (l : List Char) :
    pySplitOn sep l =
      match breakSep sep l with
      | none => [l]
      | some (a, b) => a :: pySplitOn sep b := by
  show pySplitOnF (l.length + 1) sep l = _
  cases hbk : breakSep sep l with
  | none => simp [pySplitOnF, hbk]
  | some p =>
    obtain ⟨a, b⟩ := p
    have hlt := breakSep_some_length hsep hbk
    simp only [pySplitOnF, hbk]
    exact congrArg _ (@pySplitOnF_fuel sep l.length (b.length + 1) b (by omega) (by omega) hsep)

theorem pySplitOn_of_none {sep l : List Char} (hsep : sep ≠ [])
    (h : breakSep sep l = none) : pySplitOn sep l = [l] := by
  rw [pySplitOn_eq sep hsep l, h]

theorem pySplitOn_of_some {sep l a b : List Char} (hsep : sep ≠ [])
    (h : breakSep sep l = some (a, b)) :
    pySplitOn sep l = a :: pySplitOn sep b := by
  rw [pySplitOn_eq sep hsep l, h]

theorem length_dropWhile_le' (p : Char → Bool) (l : List Char) :
    (l.dropWhile p).length ≤ l.length := by
  induction l with
  | nil => simp
  | cons c cs ih =>
    by_cases h : p c
    · rw [List.dropWhile_cons_of_pos h]; exact Nat.le_succ_of_le ih
    · rw [List.dropWhile_cons_of_neg h]

theorem pySplitWsF_fuel :
    ∀ {n m : Nat} {l : List Char}, l.length < n → l.length < m →
      pySplitWsF n l = pySplitWsF m l := by
  intro n
  induction n with
  | zero => intro m l h; omega
  | succ n ih =>
    intro m l hn hm
    cases m with
    | zero => omega
    | succ m =>
      cases l with
      | nil => rfl
      | cons c cs =>
        show (if pySpace c = true then pySplitWsF n cs
              else (c :: cs).takeWhile (fun d => !pySpace d) ::
                pySplitWsF n ((c :: cs).dropWhile (fun d => !pySpace d))) =
            (if pySpace c = true then pySplitWsF m cs
              else (c :: cs).takeWhile (fun d => !pySpace d) ::
                pySplitWsF m ((c :: cs).dropWhile (fun d => !pySpace d)))
        simp only [List.length_cons] at hn hm
        cases hc : pySpace c with
        | true =>
          rw [if_pos rfl, if_pos rfl]
          exact @ih m cs (by omega) (by omega)
        | false =>
          rw [if_neg (by simp), if_neg (by simp)]
          have hd : ((c :: cs).dropWhile (fun d => !pySpace d)).length ≤ cs.length := by
            rw [List.dropWhile_cons_of_pos (by simp [hc])]
            exact length_dropWhile_le' _ cs
          exact congrArg _ (@ih m _ (by omega) (by omega))

theorem pySplitWs_nil : pySplitWs [] = [] := rfl

theorem pySplitWs_cons_space {c : Char} (cs : List Char) (hc : pySpace c = true) :
    pySplitWs (c :: cs) = pySplitWs cs := by
  show (if pySpace c = true then pySplitWsF (cs.length + 1) cs
        else (c :: cs).takeWhile (fun d => !pySpace d) ::
          pySplitWsF (cs.length + 1) ((c :: cs).dropWhile (fun d => !pySpace d))) = _
  rw [if_pos hc]
  rfl

theorem pySplitWs_cons_tok {c : Char} (cs : List Char) (hc : pySpace c = false) :
    pySplitWs (c :: cs) =
      (c :: cs).takeWhile (fun d => !pySpace d) ::
        pySplitWs ((c :: cs).dropWhile (fun d => !pySpace d)) := by
  show (if pySpace c = true then pySplitWsF (cs.length + 1) cs
        else (c :: cs).takeWhile (fun d => !pySpace d) ::
          pySplitWsF (cs.length + 1) ((c :: cs).dropWhile (fun d => !pySpace d))) = _
  rw [if_neg (by simp [hc])]
  have hd : ((c :: cs).dropWhile (fun d => !pySpace d)).length ≤ cs.length := by
    rw [List.dropWhile_cons_of_pos (by simp [hc])]
    exact length_dropWhile_le' _ cs
  exact congrArg _
    (@pySplitWsF_fuel (cs.length + 1) (((c :: cs).dropWhile (fun d => !pySpace d)).length + 1)
      _ (by omega) (by omega))

theorem findCloseQ_some_structure {q prev : Char} {l m rest : List Char}
    (h : findCloseQ q prev l = some (m, rest)) : l = m ++ q :: rest := by
  induction l generalizing prev m with
  | nil => simp [findCloseQ] at h
  | cons c cs ih =>
    by_cases hc : (c = q && prev != bslash) = true
    · rw [findCloseQ, if_pos hc] at h
      obtain ⟨rfl, rfl⟩ : ([], cs) = (m, rest) := by simpa using h
      simp only [Bool.and_eq_true, decide_eq_true_eq] at hc
      simp [hc.1]
    · rw [findCloseQ, if_neg hc] at h
      cases hin : findCloseQ q c cs with
      | none => rw [hin] at h; simp at h
      | some p =>
        rw [hin] at h
        obtain ⟨rfl, rfl⟩ : (c :: p.1, p.2) = (m, rest) := by simpa using h
        simp [ih hin]

theorem findBlockEnd_some_structure {l rest : List Char}
    (h : findBlockEnd l = some rest) : ∃ m, l = m ++ '*' :: '/' :: rest := by
  induction l with
  | nil => simp [findBlockEnd] at h
  | cons c cs ih =>
    by_cases hc : (c = '*' && begins ['/'] cs) = true
    · rw [findBlockEnd, if_pos hc] at h
      simp only [Bool.and_eq_true, decide_eq_true_eq] at hc
      obtain ⟨rfl, hb⟩ := hc
      cases cs with
      | nil => simp [begins] at hb
      | cons d ds =>
        simp only [begins, Bool.and_eq_true, decide_eq_true_eq] at hb
        obtain rfl : d = '/' := hb.1.symm
        obtain rfl : ds = rest := by simpa using h
        exact ⟨[], rfl⟩
    · rw [findBlockEnd, if_neg hc] at h
      obtain ⟨m, rfl⟩ := ih h
      exact ⟨c :: m, rfl⟩

theorem lineCommentEnd_structure {cs rest : List Char}
    (h : lineCommentEnd cs = some rest) :
    ∃ body, cs = body ++ rest ∧ (rest = [] ∨ rest.head? = some '\n') := by
  unfold lineCommentEnd at h
  set dw := cs.dropWhile (fun c => !(c = '\n' || c = '\r')) with hdw
  by_cases h0 : dw = []
  · rw [if_pos h0] at h
    obtain rfl : ([] : List Char) = rest := by simpa using h
    exact ⟨cs, by simp, Or.inl rfl⟩
  · rw [if_neg h0] at h
    by_cases h1 : dw.head? = some '\n'
    · rw [if_pos h1] at h
      obtain rfl : dw = rest := by simpa using h
      refine ⟨cs.takeWhile (fun c => !(c = '\n' || c = '\r')), ?_, Or.inr h1⟩
      rw [hdw]
      exact (List.takeWhile_append_dropWhile (fun c => !(c = '\n' || c = '\r')) cs).symm
    · rw [if_neg h1] at h
      simp at h

theorem lineCommentEnd_length {cs rest : List Char}
    (h : lineCommentEnd cs = some rest) : rest.length ≤ cs.length := by
  obtain ⟨body, rfl, -⟩ := lineCommentEnd_structure h
  simp

theorem findCloseQ_some_length {q prev : Char} {l m rest : List Char}
    (h : findCloseQ q prev l = some (m, rest)) : rest.length < l.length := by
  have := findCloseQ_some_structure h
  subst this
  simp only [List.length_append, List.length_cons]
  omega

theorem findBlockEnd_some_length {l rest : List Char}
    (h : findBlockEnd l = some rest) : rest.length < l.length := by
  obtain ⟨m, rfl⟩ := findBlockEnd_some_structure h
  simp only [List.length_append, List.length_cons]
  omega

theorem begins_single {c : Char} {cs : List Char} :
    begins [c] cs = true ↔ ∃ t, cs = c :: t := by
  cases cs with
  | nil => simp [begins]
  | cons d ds =>
    constructor
    · intro h
      have hc : c = d := by
        simp only [begins, Bool.and_eq_true, decide_eq_true_eq] at h
        exact h.1
      exact ⟨ds, by rw [hc]⟩
    · rintro ⟨t, ht⟩
      injection ht with h1 h2
      subst h1
      simp [begins]

theorem scanStep_cons (c : Char) (cs : List Char) :
    scanStep (c :: cs) =
      if c = dquote || c = squote then
        match findCloseQ c c cs with
        | some (body, rest) => some (.quoteRun c body rest)
        | none => some (.plain c cs)
      else if c = '/' && begins ['*'] cs then
        match findBlockEnd (cs.drop 1) with
        | some rest => some (.comment rest)
        | none => some (.plain c cs)
      else if c = '/' && begins ['/'] cs then
        match lineCommentEnd (cs.drop 1) with
        | some rest => some (.comment rest)
        | none => some (.plain c cs)
      else some (.plain c cs) := rfl

theorem scanStep_quoteRun_inv {l : List Char} {q : Char} {body rest : List Char}
    (h : scanStep l = some (.quoteRun q body rest)) :
    (q = dquote ∨ q = squote) ∧ l = q :: (body ++ q :: rest) ∧
      findCloseQ q q (body ++ q :: rest) = some (body, rest) := by
  cases l with
  | nil => simp [scanStep] at h
  | cons c cs =>
    rw [scanStep_cons] at h
    by_cases hq : (c = dquote || c = squote) = true
    · rw [if_pos hq] at h
      cases hfc : findCloseQ c c cs with
      | none => rw [hfc] at h; simp at h
      | some p =>
        obtain ⟨b0, r0⟩ := p
        rw [hfc] at h
        simp only [Option.some.injEq, ScanStep.quoteRun.injEq] at h
        obtain ⟨rfl, rfl, rfl⟩ := h
        have hst := findCloseQ_some_structure hfc
        subst hst
        simp only [Bool.or_eq_true, decide_eq_true_eq] at hq
        exact ⟨hq, rfl, hfc⟩
    · rw [if_neg hq] at h
      by_cases hb : (c = '/' && begins ['*'] cs) = true
      · rw [if_pos hb] at h
        cases hfb : findBlockEnd (cs.drop 1) with
        | none => rw [hfb] at h; simp at h
        | some rest0 => rw [hfb] at h; simp at h
      · rw [if_neg hb] at h
        by_cases hl : (c = '/' && begins ['/'] cs) = true
        · rw [if_pos hl] at h
          cases hlc : lineCommentEnd (cs.drop 1) with
          | none => rw [hlc] at h; simp at h
          | some rest0 => rw [hlc] at h; simp at h
        · rw [if_neg hl] at h
          simp at h

theorem scanStep_comment_inv {l rest : List Char}
    (h : scanStep l = some (.comment rest)) :
    (∃ cs2, l = '/' :: '*' :: cs2 ∧ findBlockEnd cs2 = some rest) ∨
      (∃ cs2, l = '/' :: '/' :: cs2 ∧ lineCommentEnd cs2 = some rest) := by
  cases l with
  | nil => simp [scanStep] at h
  | cons c cs =>
    rw [scanStep_cons] at h
    by_cases hq : (c = dquote || c = squote) = true
    · rw [if_pos hq] at h
      cases hfc : findCloseQ c c cs with
      | none => rw [hfc] at h; simp at h
      | some p => obtain ⟨b0, r0⟩ := p; rw [hfc] at h; simp at h
    · rw [if_neg hq] at h
      by_cases hb : (c = '/' && begins ['*'] cs) = true
      · rw [if_pos hb] at h
        simp only [Bool.and_eq_true, decide_eq_true_eq] at hb
        obtain ⟨rfl, hb2⟩ := hb
        obtain ⟨cs2, rfl⟩ := begins_single.mp hb2
        cases hfb : findBlockEnd (('*' :: cs2).drop 1) with
        | none => rw [hfb] at h; simp at h
        | some rest0 =>
          rw [hfb] at h
          simp only [Option.some.injEq, ScanStep.comment.injEq] at h
          subst h
          exact Or.inl ⟨cs2, rfl, by simpa using hfb⟩
      · rw [if_neg hb] at h
        by_cases hl : (c = '/' && begins ['/'] cs) = true
        · rw [if_pos hl] at h
          simp only [Bool.and_eq_true, decide_eq_true_eq] at hl
          obtain ⟨rfl, hl2⟩ := hl
          obtain ⟨cs2, rfl⟩ := begins_single.mp hl2
          cases hlc : lineCommentEnd (('/' :: cs2).drop 1) with
          | none => rw [hlc] at h; simp at h
          | some rest0 =>
            rw [hlc] at h
            simp only [Option.some.injEq, ScanStep.comment.injEq] at h
            subst h
            exact Or.inr ⟨cs2, rfl, by simpa using hlc⟩
        · rw [if_neg hl] at h
          simp at h

theorem scanStep_plain_inv {l : List Char} {c : Char} {rest : List Char}
    (h : scanStep l = some (.plain c rest)) : l = c :: rest := by
  cases l with
  | nil => simp [scanStep] at h
  | cons c0 cs =>
    rw [scanStep_cons] at h
    by_cases hq : (c0 = dquote || c0 = squote) = true
    · rw [if_pos hq] at h
      cases hfc : findCloseQ c0 c0 cs with
      | none =>
        rw [hfc] at h
        simp only [Option.some.injEq, ScanStep.plain.injEq] at h
        rw [h.1, h.2]
      | some p => obtain ⟨b0, r0⟩ := p; rw [hfc] at h; simp at h
    · rw [if_neg hq] at h
      by_cases hb : (c0 = '/' && begins ['*'] cs) = true
      · rw [if_pos hb] at h
        cases hfb : findBlockEnd (cs.drop 1) with
        | none =>
          rw [hfb] at h
          simp only [Option.some.injEq, ScanStep.plain.injEq] at h
          rw [h.1, h.2]
        | some rest0 => rw [hfb] at h; simp at h
      · rw [if_neg hb] at h
        by_cases hl : (c0 = '/' && begins ['/'] cs) = true
        · rw [if_pos hl] at h
          cases hlc : lineCommentEnd (cs.drop 1) with
          | none =>
            rw [hlc] at h
            simp only [Option.some.injEq, ScanStep.plain.injEq] at h
            rw [h.1, h.2]
          | some rest0 => rw [hlc] at h; simp at h
        · rw [if_neg hl] at h
          simp only [Option.some.injEq, ScanStep.plain.injEq] at h
          rw [h.1, h.2]

theorem scanStep_rest_length {l : List Char} {s : ScanStep}
    (h : scanStep l = some s) : (stepRest s).length < l.length := by
  cases s with
  | quoteRun q body rest =>
    obtain ⟨-, rfl, -⟩ := scanStep_quoteRun_inv h
    simp only [stepRest, List.length_cons, List.length_append]
    omega
  | comment rest =>
    rcases scanStep_comment_inv h with ⟨cs2, rfl, hfb⟩ | ⟨cs2, rfl, hlc⟩
    · have := findBlockEnd_some_length hfb
      simp only [stepRest, List.length_cons]
      omega
    · have := lineCommentEnd_length hlc
      simp only [stepRest, List.length_cons]
      omega
  | plain c rest =>
    have := scanStep_plain_inv h
    subst this
    simp [stepRest]

theorem stripCF_fuel :
    ∀ {n m : Nat} {l : List Char}, l.length < n → l.length < m →
      stripCF n l = stripCF m l := by
  intro n
  induction n with
  | zero => intro m l h; omega
  | succ n ih =>
    intro m l hn hm
    cases m with
    | zero => omega
    | succ m =>
      show (match scanStep l with
            | none => []
            | some (.quoteRun q body rest) => q :: body ++ q :: stripCF n rest
            | some (.comment rest) => stripCF n rest
            | some (.plain c rest) => c :: stripCF n rest) =
          (match scanStep l with
            | none => []
            | some (.quoteRun q body rest) => q :: body ++ q :: stripCF m rest
            | some (.comment rest) => stripCF m rest
            | some (.plain c rest) => c :: stripCF m rest)
      cases hss : scanStep l with
      | none => rfl
      | some s =>
        have hlen := scanStep_rest_length hss
        cases s with
        | quoteRun q body rest =>
          simp only [stepRest] at hlen
          simp only
          rw [@ih m rest (by omega) (by omega)]
        | comment rest =>
          simp only [stepRest] at hlen
          exact @ih m rest (by omega) (by omega)
        | plain c rest =>
          simp only [stepRest] at hlen
          exact congrArg _ (@ih m rest (by omega) (by omega))

theorem stripC_nil : stripC [] = [] := rfl

theorem stripC_step {l : List Char} :
    stripC l =
      match scanStep l with
      | none => []
      | some (.quoteRun q body rest) => q :: body ++ q :: stripC rest
      | some (.comment rest) => stripC rest
      | some (.plain c rest) => c :: stripC rest := by
  show stripCF (l.length + 1) l = _
  cases hss : scanStep l with
  | none => simp [stripCF, hss]
  | some s =>
    have hlen := scanStep_rest_length hss
    cases s with
    | quoteRun q body rest =>
      simp only [stepRest] at hlen
      simp only [stripCF, hss]
      rw [@stripCF_fuel l.length (rest.length + 1) rest (by omega) (by omega)]
      rfl
    | comment rest =>
      simp only [stepRest] at hlen
      simp only [stripCF, hss]
      exact @stripCF_fuel l.length (rest.length + 1) rest (by omega) (by omega)
    | plain c rest =>
      simp only [stepRest] at hlen
      simp only [stripCF, hss]
      exact congrArg _ (@stripCF_fuel l.length (rest.length + 1) rest (by omega) (by omega))

theorem stripC_of_quoteRun {l : List Char} {q : Char} {body rest : List Char}
    (h : scanStep l = some (.quoteRun q body rest)) :
    stripC l = q :: body ++ q :: stripC rest := by
  rw [stripC_step, h]

theorem stripC_of_comment {l rest : List Char}
    (h : scanStep l = some (.comment rest)) : stripC l = stripC rest := by
  rw [stripC_step, h]

theorem stripC_of_plain {l : List Char} {c : Char} {rest : List Char}
    (h : scanStep l = some (.plain c rest)) : stripC l = c :: stripC rest := by
  rw [stripC_step, h]

theorem scanStep_quote_some {c : Char} {cs body rest : List Char}
    (hq : c = dquote ∨ c = squote) (hfc : findCloseQ c c cs = some (body, rest)) :
    scanStep (c :: cs) = some (.quoteRun c body rest) := by
  rw [scanStep_cons, if_pos (by rcases hq with rfl | rfl <;> simp), hfc]

theorem scanStep_quote_none {c : Char} {cs : List Char}
    (hq : c = dquote ∨ c = squote) (hfc : findCloseQ c c cs = none) :
    scanStep (c :: cs) = some (.plain c cs) := by
  rw [scanStep_cons, if_pos (by rcases hq with rfl | rfl <;> simp), hfc]

theorem scanStep_plain_of {c : Char} (cs : List Char)
    (h1 : c ≠ dquote) (h2 : c ≠ squote) (h3 : c ≠ '/') :
    scanStep (c :: cs) = some (.plain c cs) := by
  rw [scanStep_cons, if_neg (by simp [h1, h2]), if_neg (by simp [h3]), if_neg (by simp [h3])]

theorem findCloseQ_clean {q : Char} {body b : List Char} :
    ∀ (p : Char), q ∉ body → (body = [] → p ≠ bslash) →
      (∀ x, body.getLast? = some x → x ≠ bslash) →
      findCloseQ q p (body ++ q :: b) = some (body, b) := by
  induction body with
  | nil =>
    intro p hmem hp hlast
    have hp' : p ≠ bslash := hp rfl
    show findCloseQ q p (q :: b) = some ([], b)
    rw [findCloseQ, if_pos (by simp [hp'])]
  | cons c body' ih =>
    intro p hmem hp hlast
    have hc : c ≠ q := fun h => hmem (h ▸ List.mem_cons_self _ _)
    show findCloseQ q p (c :: (body' ++ q :: b)) = some (c :: body', b)
    rw [findCloseQ, if_neg (by simp [fun h => hc h])]
    have ihr : findCloseQ q c (body' ++ q :: b) = some (body', b) := by
      refine ih c (fun h => hmem (List.mem_cons_of_mem _ h)) ?_ ?_
      · intro hnil
        subst hnil
        exact hlast c rfl
      · intro x hx
        apply hlast
        cases body' with
        | nil => simp at hx
        | cons d ds => rw [List.getLast?_cons_cons]; exact hx
    rw [ihr]
    rfl

/-!  ## Claim C5  -/

/-- C5 counterexample: the claim's universal part says every run delimited by
matching quotes is preserved verbatim in the stripped text.  In the input
`x // "` + newline + `y "`, the run `"\ny "` is delimited by the only two
(matching, unescaped) double quotes of the text, yet the `//`, scanned before
the opening quote is reached, matches the line-comment alternative and deletes
that opening quote: the run occurs in the input but not in the stripped
output. -/
theorem c5_quote_safety_counterexample :
    hasSub ("\"\ny \"".toList) ("x // \"\ny \"".toList) = true ∧
      hasSub ("\"\ny \"".toList) (stripC ("x // \"\ny \"".toList)) = false := by
  exact ⟨rfl, rfl⟩

/-- C5 (corrected): quote-safety holds for a quoted literal whose opening
quote is reached by the scan outside any comment.  If the prefix `a` contains
no quote and no slash (so the scan copies it verbatim), and the literal body
contains no delimiting quote and does not end in a backslash, then the whole
quoted run — comment markers inside it included — is preserved verbatim and
stripping continues after it.  In particular the spec's example line
`var s - x ::= T ("// not a comment")` is left unchanged (see the witness). -/
theorem c5_quote_safety_amended (a body b : List Char) (q : Char)
    (hq : q = dquote ∨ q = squote)
    (ha : ∀ c ∈ a, c ≠ dquote ∧ c ≠ squote ∧ c ≠ '/')
    (hbody : q ∉ body)
    (hlast : ∀ x, body.getLast? = some x → x ≠ bslash) :
    stripC (a ++ q :: body ++ q :: b) = a ++ q :: body ++ q :: stripC b := by
  induction a with
  | nil =>
    have hqb : q ≠ bslash := by rcases hq with rfl | rfl <;> decide
    have hfc : findCloseQ q q (body ++ q :: b) = some (body, b) :=
      findCloseQ_clean q hbody (fun _ => hqb) hlast
    have hss : scanStep (q :: (body ++ q :: b)) = some (.quoteRun q body b) :=
      scanStep_quote_some hq hfc
    simpa using stripC_of_quoteRun hss
  | cons c a' iha =>
    obtain ⟨h1, h2, h3⟩ := ha c (List.mem_cons_self _ _)
    have hss : scanStep (c :: (a' ++ q :: body ++ q :: b)) =
        some (.plain c (a' ++ q :: body ++ q :: b)) :=
      scanStep_plain_of _ h1 h2 h3
    have h4 := stripC_of_plain (by simpa using hss)
    calc stripC ((c :: a') ++ q :: body ++ q :: b)
        = c :: stripC (a' ++ q :: body ++ q :: b) := by simpa using h4
      _ = c :: (a' ++ q :: body ++ q :: stripC b) := by
          rw [iha (fun x hx => ha x (List.mem_cons_of_mem _ hx))]
      _ = (c :: a') ++ q :: body ++ q :: stripC b := by simp

/-- Witness for C5 (amended) at the spec's example line: the quoted literal
`"// not a comment"` — and with it the entire line — survives stripping
unchanged. -/
theorem c5_witness :
    stripC ("var s - x ::= T (\"// not a comment\")".toList) =
      "var s - x ::= T (\"// not a comment\")".toList := by
  have h := c5_quote_safety_amended ("var s - x ::= T (".toList)
    ("// not a comment".toList) (")".toList) dquote (Or.inl rfl)
    (by decide) (by decide) (by decide)
  exact h

/-!  ## Claim C1  -/

/-- C1 (code bug): the claim says that a line whose parenthesized argument
suffix is the sentinel `()` normalizes to a statement with an *empty* argument
list.  The code instead produces the one-element list `[""]`: `args_string` is
`"()"`, the `[1:-1]` slice removes the parentheses *before* `__args_pattern`
(which matches exactly `()`) is applied, so the substitution never fires and
`"".split(" ")` yields `['']`.  This theorem evaluates the Normalizer at the
failing input `m -> go ()`: the resulting Invoke carries `args = [""]`,
not `args = []`. -/
theorem c1_sentinel_args_bug :
    normalize ("m -> go ()".toList) =
      .ok [.invoke ("m".toList) ("go".toList) [[]]] ∧ ([[]] : List (List Char)) ≠ [] := by
  exact ⟨rfl, by simp⟩

/-!  ## Claim C2  -/

/-- C2 (code bug): the end-to-end scenario.  The two-line input normalizes to
`Construct{T, m, C, ["1","2"]}` followed by `Invoke{m, go, [""]}` — *not*
`Invoke{m, go, []}` as the claim states (same slip as C1) — and rendering the
intermediate text of that sequence with the built-in `cpp` Rule Set does yield
exactly prologue + `"\n\tT* m = new C(1, 2);"` + `"\n\tm->go();"` + epilogue,
because `", ".join([''])` and `", ".join([])` are both the empty string. -/
theorem c2_end_to_end :
    normalize ("T - m ::= C (1 2)\nm -> go ()".toList) = .ok exTwoStmts ∧
      convertText ("cpp".toList) (serializeStmts exTwoStmts) =
        .ok (cppRule.start ++ "\n\tT* m = new C(1, 2);".toList ++
          "\n\tm->go();".toList ++ cppRule.endTxt) := by
  exact ⟨rfl, rfl⟩

/-!  ## Claim C4  -/

/-- C4 (code bug): round-tripping fails.  Serializing the single statement
`Invoke{m, go, ["x","y"]}` gives the intermediate line `method m go ['x', 'y']`,
but the deserializer of `convert.py` evaluates only `line.split()[3]`, the
whitespace-token `['x',`, which is not a well-formed list literal: `eval`
raises `SyntaxError` and no statement sequence is recovered at all (the `var`
branch, by contrast, rejoins `line.split()[4:]`).  So
`deserialize (serialize S) ≠ S` for this `S`. -/
theorem c4_roundtrip_bug :
    readStmts (serializeStmts
        [.invoke ("m".toList) ("go".toList) [("x".toList), ("y".toList)]]) =
      .error .evalErr := by
  rfl

/-!  ## Claim C7  -/

/-- C7 (confirmed): rendering with a target-language identifier absent from
the Rule Set registry fails with the unsupported-target error and produces no
output: `convert.py` checks `argv[1] not in rules.keys()` and exits before the
input is read or anything is written, so the result is the error and no text. -/
theorem c7_unsupported_target (lang text : List Char) (h : rules.lookup lang = none) :
    convertText lang text = .error .unsupportedTarget := by
  unfold convertText
  rw [h]

/-- Witness for C7 at the identifier `nolang` of the spec. -/
theorem c7_witness :
    convertText ("nolang".toList)
        (serializeStmts [.invoke ("m".toList) ("go".toList) []]) =
      .error .unsupportedTarget :=
  c7_unsupported_target _ _ (by rfl)

/-!  ## Claim C9  -/

/-- C9 (confirmed): rendering is deterministic.  The Renderer is a pure
function of the Rule Set and the Statement sequence — `convert.py` builds
`output_text` by folding the format templates over the lines with no other
state — so two renderings of the same sequence with the same Rule Set are
byte-identical. -/
theorem c9_render_deterministic (rule : RuleSet) (stmts : List Stmt)
    (t1 t2 : Option (List Char))
    (h1 : renderSeq rule stmts = t1) (h2 : renderSeq rule stmts = t2) : t1 = t2 := by
  rw [← h1, ← h2]

/-- Witness for C9: two renderings of `m -> go ()`'s statement with the `cpp`
Rule Set, both evaluating to the same concrete text. -/
theorem c9_witness :
    (some (cppRule.start ++ "\n\tm->go();".toList ++ cppRule.endTxt) :
        Option (List Char)) =
      some (cppRule.start ++ "\n\tm->go();".toList ++ cppRule.endTxt) :=
  c9_render_deterministic cppRule [.invoke ("m".toList) ("go".toList) []] _ _ rfl rfl

/-!  ## Claim C10  -/

/-- C10 (confirmed): when a line contains both ` ::= ` and ` -> `, the
declaration marker wins: `parse.py` tests `" ::= " in line` first, so the line
is handled by the Construct branch (producing a Construct statement or an
`IndexError`), never by the Invoke branch. -/
theorem c10_decl_marker_precedence (line : List Char) (h : hasSub sepDecl line = true) :
    ∀ r m a, classifyLine line ≠ .stmt (.invoke r m a) := by
  intro r m a
  unfold classifyLine
  rw [if_pos h]
  cases h1 : (pySplitOn sepTyName line).get? 1 with
  | none => simp
  | some afterTy =>
    cases h2 : (pySplitOn sepDecl line).get? 1 with
    | none => simp
    | some afterDecl => simp

/-- Witness for C10 at the line `a -> b - c ::= d`, which contains both
markers. -/
theorem c10_witness :
    classifyLine ("a -> b - c ::= d".toList) ≠
      .stmt (.invoke ("a".toList) ("b".toList) []) :=
  c10_decl_marker_precedence _ (by rfl) _ _ _

/-!  ## Claim C3  -/

theorem runLines_badLine {orig : List (List Char)} :
    ∀ {ls : List (List Char)} {k : Nat},
      runLines orig ls = .error (.badLine k) →
      ∃ L, L ∈ ls ∧ classifyLine L = .indexError ∧
        orig.findIdx? (fun l => l = L) = some (k - 1) := by
  intro ls
  induction ls with
  | nil =>
    intro k h
    simp [runLines] at h
  | cons L rest ih =>
    intro k h
    rw [runLines] at h
    cases hc : classifyLine L with
    | skip =>
      rw [hc] at h
      obtain ⟨L', hmem, h2, h3⟩ := ih h
      exact ⟨L', List.mem_cons_of_mem _ hmem, h2, h3⟩
    | stmt s =>
      rw [hc] at h
      cases he : runLines orig rest with
      | ok out => rw [he] at h; simp [Except.map] at h
      | error e =>
        rw [he] at h
        have : e = .badLine k := by simpa [Except.map] using h
        subst this
        obtain ⟨L', hmem, h2, h3⟩ := ih he
        exact ⟨L', List.mem_cons_of_mem _ hmem, h2, h3⟩
    | indexError =>
      rw [hc] at h
      cases hf : orig.findIdx? (fun l => l = L) with
      | none => rw [hf] at h; simp at h
      | some i =>
        rw [hf] at h
        have : i + 1 = k := by simpa using h
        refine ⟨L, List.mem_cons_self _ _, hc, ?_⟩
        rw [hf]
        simp only [Option.some.injEq]
        omega

/-- C3 counterexample: the claim says a malformed line at original line 7 is
reported as line 7 even when earlier lines were removed by comment stripping.
In this input the malformed line `x ::= y` (it contains ` ::= ` but no ` - `)
sits at original line 7 — the second conjunct exhibits it at 0-based index 6
of the original line list — yet an identical line inside the stripped block
comment sits at original line 3, and `full_text.split("\n").index(line)`
returns the *first* occurrence, so the reported number is 3, not 7. -/
theorem c3_line_number_counterexample :
    normalize ("a\n/*\nx ::= y\n*/\nb\nc\nx ::= y".toList) = .error (.badLine 3) ∧
      (pySplitOn ['\n'] ("a\n/*\nx ::= y\n*/\nb\nc\nx ::= y".toList)).get? 6 =
        some ("x ::= y".toList) ∧ (3 : Nat) ≠ 7 := by
  exact ⟨rfl, rfl, by omega⟩

/-- C3 (corrected): whenever normalization fails with `SyntaxError` at line
`k`, there is a classified line, missing its required delimiter, among the
comment-stripped code lines whose *text* first occurs at 0-based index `k - 1`
among the lines of the original un-stripped input: the reported number is the
1-based position of the first identical line of the original input, which
coincides with the malformed line's own position only when no earlier line
(for instance inside a removed comment) has the same text and stripping did
not alter the line itself. -/
theorem c3_line_number_amended (text : List Char) (k : Nat)
    (h : normalize text = .error (.badLine k)) :
    ∃ L, L ∈ (pySplitOn ['\n'] (stripC text)).filter (fun l => l ≠ []) ∧
      classifyLine L = .indexError ∧
      (pySplitOn ['\n'] text).findIdx? (fun l => l = L) = some (k - 1) := by
  have h' : runLines (pySplitOn ['\n'] text)
      ((pySplitOn ['\n'] (stripC text)).filter (fun l => l ≠ [])) =
      .error (.badLine k) := h
  exact runLines_badLine h'

/-!  ## Lemmas for the idempotence analysis of comment stripping (claim C6)  -/

theorem scanStep_eq_none_iff {l : List Char} : scanStep l = none ↔ l = [] := by
  cases l with
  | nil => simp [scanStep]
  | cons c cs =>
    rw [scanStep_cons]
    constructor
    · intro h
      by_cases hq : (c = dquote || c = squote) = true
      · rw [if_pos hq] at h
        cases hfc : findCloseQ c c cs with
        | none => rw [hfc] at h; simp at h
        | some p => obtain ⟨b0, r0⟩ := p; rw [hfc] at h; simp at h
      · rw [if_neg hq] at h
        by_cases hb : (c = '/' && begins ['*'] cs) = true
        · rw [if_pos hb] at h
          cases hfb : findBlockEnd (cs.drop 1) with
          | none => rw [hfb] at h; simp at h
          | some r => rw [hfb] at h; simp at h
        · rw [if_neg hb] at h
          by_cases hl : (c = '/' && begins ['/'] cs) = true
          · rw [if_pos hl] at h
            cases hlc : lineCommentEnd (cs.drop 1) with
            | none => rw [hlc] at h; simp at h
            | some r => rw [hlc] at h; simp at h
          · rw [if_neg hl] at h
            simp at h
    · intro h
      simp at h

theorem mem_stripC {c : Char} : ∀ {l : List Char}, c ∈ stripC l → c ∈ l := by
  suffices h : ∀ (n : Nat) (l : List Char), l.length ≤ n → c ∈ stripC l → c ∈ l by
    intro l
    exact h l.length l le_rfl
  intro n
  induction n with
  | zero =>
    intro l hl
    obtain rfl : l = [] := List.length_eq_zero.mp (Nat.le_zero.mp hl)
    simp [stripC_nil]
  | succ n ih =>
    intro l hl hc
    cases hss : scanStep l with
    | none =>
      obtain rfl := scanStep_eq_none_iff.mp hss
      rw [stripC_nil] at hc
      exact hc
    | some s =>
      have hlen := scanStep_rest_length hss
      cases s with
      | quoteRun q body rest =>
        obtain ⟨hq, hleq, hfc⟩ := scanStep_quoteRun_inv hss
        rw [stripC_of_quoteRun hss] at hc
        have hc' : c = q ∨ c ∈ body ∨ c = q ∨ c ∈ stripC rest := by simpa using hc
        rw [hleq]
        simp only [stepRest] at hlen
        rcases hc' with rfl | h3 | rfl | h5
        · exact List.mem_cons_self _ _
        · exact List.mem_cons_of_mem _ (List.mem_append_left _ h3)
        · exact List.mem_cons_self _ _
        · have h6 : c ∈ rest := ih rest (by rw [hleq] at hl; simp at hl; omega) h5
          exact List.mem_cons_of_mem _ (List.mem_append_right _ (List.mem_cons_of_mem _ h6))
      | comment rest =>
        rw [stripC_of_comment hss] at hc
        simp only [stepRest] at hlen
        have h6 : c ∈ rest := ih rest (by omega) hc
        rcases scanStep_comment_inv hss with ⟨cs2, rfl, hfb⟩ | ⟨cs2, rfl, hlc⟩
        · obtain ⟨m, rfl⟩ := findBlockEnd_some_structure hfb
          refine List.mem_cons_of_mem _ (List.mem_cons_of_mem _ ?_)
          exact List.mem_append_right _ (List.mem_cons_of_mem _ (List.mem_cons_of_mem _ h6))
        · obtain ⟨body, rfl, -⟩ := lineCommentEnd_structure hlc
          refine List.mem_cons_of_mem _ (List.mem_cons_of_mem _ ?_)
          exact List.mem_append_right _ h6
      | plain c0 rest =>
        obtain rfl := scanStep_plain_inv hss
        rw [stripC_of_plain hss] at hc
        simp only [stepRest] at hlen
        rcases List.mem_cons.mp hc with rfl | hc2
        · exact List.mem_cons_self _ _
        · exact List.mem_cons_of_mem _ (ih rest (by simp at hl; omega) hc2)

theorem stripC_head_not_slash {l : List Char} (h : l.head? ≠ some '/') :
    stripC l = [] ∨ (stripC l).head? = l.head? := by
  cases hss : scanStep l with
  | none =>
    obtain rfl := scanStep_eq_none_iff.mp hss
    exact Or.inl stripC_nil
  | some s =>
    cases s with
    | quoteRun q body rest =>
      obtain ⟨hq, hleq, hfc⟩ := scanStep_quoteRun_inv hss
      rw [stripC_of_quoteRun hss, hleq]
      exact Or.inr (by simp)
    | comment rest =>
      exfalso
      rcases scanStep_comment_inv hss with ⟨cs2, rfl, -⟩ | ⟨cs2, rfl, -⟩ <;> simp at h
    | plain c0 rest =>
      obtain rfl := scanStep_plain_inv hss
      rw [stripC_of_plain hss]
      exact Or.inr (by simp)

theorem hasSS_cons (c : Char) (cs : List Char) :
    hasSS (c :: cs) = ((c = '*' && begins ['/'] cs) || hasSS cs) := rfl

theorem findBlockEnd_none_iff {l : List Char} : findBlockEnd l = none ↔ hasSS l = false := by
  induction l with
  | nil => simp [findBlockEnd, hasSS]
  | cons c cs ih =>
    rw [findBlockEnd, hasSS_cons]
    by_cases hc : (c = '*' && begins ['/'] cs) = true
    · rw [if_pos hc, hc]
      simp
    · rw [if_neg hc]
      have hc' : (c = '*' && begins ['/'] cs) = false := by
        cases h : (c = '*' && begins ['/'] cs) with
        | true => exact absurd h hc
        | false => rfl
      rw [hc']
      simpa using ih

theorem hasSS_append_parts {a b : List Char} (h : hasSS (a ++ b) = false) :
    hasSS a = false ∧ hasSS b = false := by
  induction a with
  | nil => exact ⟨rfl, by simpa using h⟩
  | cons c a' ih =>
    rw [List.cons_append, hasSS_cons, Bool.or_eq_false_iff] at h
    obtain ⟨h1, h2⟩ := h
    obtain ⟨h3, h4⟩ := ih h2
    refine ⟨?_, h4⟩
    rw [hasSS_cons, Bool.or_eq_false_iff]
    refine ⟨?_, h3⟩
    cases hcs : begins ['/'] a' with
    | false => simp [hcs]
    | true =>
      obtain ⟨t, rfl⟩ := begins_single.mp hcs
      have : begins ['/'] (('/' :: t) ++ b) = true := by simp [begins]
      rw [this] at h1
      simpa using h1

theorem hasSS_append_false {a b : List Char} (ha : hasSS a = false) (hb : hasSS b = false)
    (hseam : a.getLast? = some '*' → b.head? ≠ some '/') : hasSS (a ++ b) = false := by
  induction a with
  | nil => simpa
  | cons c a' ih =>
    rw [hasSS_cons, Bool.or_eq_false_iff] at ha
    obtain ⟨h1, h2⟩ := ha
    have hseam' : a'.getLast? = some '*' → b.head? ≠ some '/' := by
      intro hl
      apply hseam
      cases a' with
      | nil => simp at hl
      | cons d ds => rw [List.getLast?_cons_cons]; exact hl
    rw [List.cons_append, hasSS_cons, Bool.or_eq_false_iff]
    refine ⟨?_, ih h2 hseam'⟩
    by_cases hc : c = '*'
    · subst hc
      cases a' with
      | nil =>
        have hbh : b.head? ≠ some '/' := hseam (by simp)
        cases b with
        | nil => simp [begins]
        | cons d ds =>
          have hd : d ≠ '/' := fun h => hbh (by rw [h]; rfl)
          simp [begins, Ne.symm hd]
      | cons d ds =>
        cases hd : decide (d = '/') with
        | true =>
          have : d = '/' := of_decide_eq_true hd
          subst this
          rw [show begins ['/'] ('/' :: ds) = true from by simp [begins]] at h1
          simp at h1
        | false =>
          have : d ≠ '/' := of_decide_eq_false hd
          simp [begins, Ne.symm this]
    · simp [hc]

theorem hasSS_append_right {a b : List Char} (hb : hasSS b = true) :
    hasSS (a ++ b) = true := by
  induction a with
  | nil => simpa
  | cons c a' ih => rw [List.cons_append, hasSS_cons, ih]; simp

theorem findCloseQ_cons_none_iff {q p c : Char} {cs : List Char} :
    findCloseQ q p (c :: cs) = none ↔
      (c = q && p != bslash) = false ∧ findCloseQ q c cs = none := by
  rw [findCloseQ]
  by_cases hc : (c = q && p != bslash) = true
  · rw [if_pos hc]
    simp [hc]
  · rw [if_neg hc]
    have hc' : (c = q && p != bslash) = false := by
      cases h : (c = q && p != bslash) with
      | true => exact absurd h hc
      | false => rfl
    simp [hc']

theorem findCloseQ_append_none {q : Char} {a b : List Char} :
    ∀ {p : Char}, (findCloseQ q p (a ++ b) = none ↔
      findCloseQ q p a = none ∧ findCloseQ q (a.getLastD p) b = none) := by
  induction a with
  | nil =>
    intro p
    simp [findCloseQ]
  | cons c a' ih =>
    intro p
    rw [List.cons_append, findCloseQ_cons_none_iff, findCloseQ_cons_none_iff, ih,
      List.getLastD_cons]
    tauto

theorem findCloseQ_none_prev {q p1 p2 : Char} {l : List Char}
    (h1 : p1 ≠ bslash) (h : findCloseQ q p1 l = none) : findCloseQ q p2 l = none := by
  cases l with
  | nil => rfl
  | cons c cs =>
    rw [findCloseQ_cons_none_iff] at h ⊢
    obtain ⟨hc, hin⟩ := h
    refine ⟨?_, hin⟩
    have hp1 : (p1 != bslash) = true := by simp [h1]
    rw [hp1] at hc
    simp only [Bool.and_true] at hc
    rw [hc]
    simp

theorem findCloseQ_rebuild {q : Char} {m rest : List Char} :
    ∀ {p : Char}, findCloseQ q p (m ++ q :: rest) = some (m, rest) →
      ∀ (rest' : List Char), findCloseQ q p (m ++ q :: rest') = some (m, rest') := by
  induction m with
  | nil =>
    intro p h rest'
    rw [List.nil_append] at h ⊢
    rw [findCloseQ] at h ⊢
    by_cases hc : (q = q && p != bslash) = true
    · rw [if_pos hc]
    · rw [if_neg hc] at h
      exfalso
      cases hin : findCloseQ q q rest with
      | none => rw [hin] at h; simp at h
      | some pr => rw [hin] at h; simp at h
  | cons c m' ih =>
    intro p h rest'
    rw [List.cons_append] at h ⊢
    rw [findCloseQ] at h ⊢
    by_cases hc : (c = q && p != bslash) = true
    · rw [if_pos hc] at h
      simp at h
    · rw [if_neg hc] at h ⊢
      cases hin : findCloseQ q c (m' ++ q :: rest) with
      | none => rw [hin] at h; simp at h
      | some pr =>
        rw [hin] at h
        obtain ⟨pr1, pr2⟩ := pr
        simp only [Option.map_some', Option.some.injEq, Prod.mk.injEq] at h
        obtain ⟨h5, rfl⟩ := h
        obtain rfl : pr1 = m' := by
          cases h5
          rfl
        rw [ih hin rest']
        rfl

theorem stripC_findCloseQ_none {q : Char} (hq : q = dquote ∨ q = squote) :
    ∀ {p : Char} {l : List Char}, findCloseQ q p l = none →
      findCloseQ q p (stripC l) = none := by
  suffices hstep : ∀ (n : Nat) (p : Char) (l : List Char), l.length ≤ n →
      findCloseQ q p l = none → findCloseQ q p (stripC l) = none by
    intro p l
    exact hstep l.length p l le_rfl
  intro n
  induction n with
  | zero =>
    intro p l hl h
    obtain rfl : l = [] := List.length_eq_zero.mp (Nat.le_zero.mp hl)
    rw [stripC_nil]
    rfl
  | succ n ih =>
    intro p l hl h
    cases hss : scanStep l with
    | none =>
      obtain rfl := scanStep_eq_none_iff.mp hss
      rw [stripC_nil]
      rfl
    | some s =>
      have hlen := scanStep_rest_length hss
      cases s with
      | quoteRun q0 body rest =>
        obtain ⟨hq0, hleq, hfc⟩ := scanStep_quoteRun_inv hss
        simp only [stepRest] at hlen
        subst hleq
        rw [findCloseQ_cons_none_iff] at h
        obtain ⟨hcond0, hin⟩ := h
        have hq0q : q0 ≠ q := by
          intro hqq
          subst hqq
          rw [hin] at hfc
          exact absurd hfc (by simp)
        obtain ⟨hbody, hrest'⟩ := findCloseQ_append_none.mp hin
        rw [findCloseQ_cons_none_iff] at hrest'
        obtain ⟨hcond3, hinner⟩ := hrest'
        have hW : findCloseQ q q0 (stripC rest) = none := by
          refine ih q0 rest ?_ hinner
          simp only [List.length_cons, List.length_append] at hl
          omega
        rw [stripC_of_quoteRun hss]
        rw [show (q0 :: body ++ q0 :: stripC rest) =
          q0 :: (body ++ q0 :: stripC rest) from rfl]
        rw [findCloseQ_cons_none_iff]
        refine ⟨hcond0, ?_⟩
        rw [findCloseQ_append_none]
        refine ⟨hbody, ?_⟩
        rw [findCloseQ_cons_none_iff]
        exact ⟨hcond3, hW⟩
      | comment rest =>
        simp only [stepRest] at hlen
        rw [stripC_of_comment hss]
        rcases scanStep_comment_inv hss with ⟨cs2, hleq, hfb⟩ | ⟨cs2, hleq, hlc⟩
        · obtain ⟨m, hm⟩ := findBlockEnd_some_structure hfb
          subst hleq
          subst hm
          rw [findCloseQ_cons_none_iff] at h
          obtain ⟨-, h⟩ := h
          rw [findCloseQ_cons_none_iff] at h
          obtain ⟨-, h⟩ := h
          rw [show (m ++ '*' :: '/' :: rest) = (m ++ ['*', '/']) ++ rest from by simp] at h
          obtain ⟨-, hrest⟩ := findCloseQ_append_none.mp h
          have hlast : (m ++ ['*', '/']).getLastD '*' = '/' := by
            rw [show (m ++ ['*', '/']) = (m ++ ['*']) ++ ['/'] from by simp,
              List.getLastD_concat]
          rw [hlast] at hrest
          have hrest' : findCloseQ q p rest = none :=
            findCloseQ_none_prev (by decide) hrest
          refine ih p rest ?_ hrest'
          simp only [List.length_cons, List.length_append] at hl
          omega
        · obtain ⟨body, hb, hrh⟩ := lineCommentEnd_structure hlc
          subst hleq
          subst hb
          rcases hrh with rfl | hrh
          · rw [stripC_nil]
            rfl
          · cases rest with
            | nil =>
              rw [stripC_nil]
              rfl
            | cons r0 rest2 =>
              obtain rfl : r0 = '\n' := by simpa using hrh
              rw [findCloseQ_cons_none_iff] at h
              obtain ⟨-, h⟩ := h
              rw [findCloseQ_cons_none_iff] at h
              obtain ⟨-, h⟩ := h
              obtain ⟨-, hrest⟩ := findCloseQ_append_none.mp h
              rw [findCloseQ_cons_none_iff] at hrest
              obtain ⟨-, hinner⟩ := hrest
              have hrest' : findCloseQ q p ('\n' :: rest2) = none := by
                rw [findCloseQ_cons_none_iff]
                refine ⟨?_, hinner⟩
                have : '\n' ≠ q := by rcases hq with rfl | rfl <;> decide
                simp [this]
              refine ih p ('\n' :: rest2) ?_ hrest'
              simp only [List.length_cons, List.length_append] at hl ⊢
              omega
      | plain c0 rest =>
        have hleq := scanStep_plain_inv hss
        simp only [stepRest] at hlen
        subst hleq
        rw [findCloseQ_cons_none_iff] at h
        obtain ⟨hcond, hin⟩ := h
        rw [stripC_of_plain hss, findCloseQ_cons_none_iff]
        refine ⟨hcond, ?_⟩
        refine ih c0 rest ?_ hin
        simp only [List.length_cons] at hl
        omega

theorem stripC_hasSS_false :
    ∀ {l : List Char}, '\r' ∉ l → hasSS l = false → hasSS (stripC l) = false := by
  suffices hstep : ∀ (n : Nat) (l : List Char), l.length ≤ n →
      '\r' ∉ l → hasSS l = false → hasSS (stripC l) = false by
    intro l
    exact hstep l.length l le_rfl
  intro n
  induction n with
  | zero =>
    intro l hl hcr h
    obtain rfl : l = [] := List.length_eq_zero.mp (Nat.le_zero.mp hl)
    rw [stripC_nil]
    rfl
  | succ n ih =>
    intro l hl hcr h
    cases hss : scanStep l with
    | none =>
      obtain rfl := scanStep_eq_none_iff.mp hss
      rw [stripC_nil]
      rfl
    | some s =>
      cases s with
      | quoteRun q0 body rest =>
        obtain ⟨hq0, hleq, hfc⟩ := scanStep_quoteRun_inv hss
        subst hleq
        rw [hasSS_cons, Bool.or_eq_false_iff] at h
        obtain ⟨h1, h2⟩ := h
        obtain ⟨hbody, hq0rest⟩ := hasSS_append_parts h2
        rw [hasSS_cons, Bool.or_eq_false_iff] at hq0rest
        obtain ⟨h3, hrest⟩ := hq0rest
        have hq0star : q0 ≠ '*' := by rcases hq0 with rfl | rfl <;> decide
        have hq0slash : q0 ≠ '/' := by rcases hq0 with rfl | rfl <;> decide
        have hW : hasSS (stripC rest) = false := by
          refine ih rest ?_ ?_ hrest
          · simp only [List.length_cons, List.length_append] at hl
            omega
          · intro hm
            exact hcr (List.mem_cons_of_mem _
              (List.mem_append_right _ (List.mem_cons_of_mem _ hm)))
        rw [stripC_of_quoteRun hss]
        rw [show (q0 :: body ++ q0 :: stripC rest) =
          q0 :: (body ++ q0 :: stripC rest) from rfl]
        rw [hasSS_cons, Bool.or_eq_false_iff]
        constructor
        · simp [hq0star]
        · refine hasSS_append_false hbody ?_ ?_
          · rw [hasSS_cons, Bool.or_eq_false_iff]
            exact ⟨by simp [hq0star], hW⟩
          · intro hlast
            simpa using hq0slash
      | comment rest =>
        rcases scanStep_comment_inv hss with ⟨cs2, hleq, hfb⟩ | ⟨cs2, hleq, hlc⟩
        · exfalso
          obtain ⟨m, hm⟩ := findBlockEnd_some_structure hfb
          subst hleq
          subst hm
          have hSS : hasSS ('*' :: '/' :: rest) = true := by
            rw [hasSS_cons]
            simp [begins]
          have hSS2 : hasSS (m ++ '*' :: '/' :: rest) = true := hasSS_append_right hSS
          rw [hasSS_cons, hasSS_cons, hSS2] at h
          simp at h
        · obtain ⟨body, hb, -⟩ := lineCommentEnd_structure hlc
          subst hleq
          subst hb
          rw [stripC_of_comment hss]
          rw [hasSS_cons, Bool.or_eq_false_iff] at h
          obtain ⟨-, h⟩ := h
          rw [hasSS_cons, Bool.or_eq_false_iff] at h
          obtain ⟨-, h⟩ := h
          obtain ⟨-, hrest⟩ := hasSS_append_parts h
          refine ih rest ?_ ?_ hrest
          · simp only [List.length_cons, List.length_append] at hl
            omega
          · intro hm
            exact hcr (List.mem_cons_of_mem _ (List.mem_cons_of_mem _
              (List.mem_append_right _ hm)))
      | plain c0 rest =>
        have hleq := scanStep_plain_inv hss
        subst hleq
        rw [hasSS_cons, Bool.or_eq_false_iff] at h
        obtain ⟨h1, h2⟩ := h
        have hW : hasSS (stripC rest) = false := by
          refine ih rest ?_ (fun hm => hcr (List.mem_cons_of_mem _ hm)) h2
          simp only [List.length_cons] at hl
          omega
        rw [stripC_of_plain hss, hasSS_cons, Bool.or_eq_false_iff]
        refine ⟨?_, hW⟩
        by_cases hc0 : c0 = '*'
        · subst hc0
          have hds : (decide ('*' = '*')) = true := by decide
          rw [hds, Bool.true_and] at h1 ⊢
          have hresth : rest.head? ≠ some '/' := by
            intro hh
            cases rest with
            | nil => simp at hh
            | cons r0 rest2 =>
              obtain rfl : r0 = '/' := by simpa using hh
              rw [show begins ['/'] ('/' :: rest2) = true from by simp [begins]] at h1
              simp at h1
          rcases stripC_head_not_slash hresth with hW0 | hWh
          · rw [hW0]
            rfl
          · cases hsc : stripC rest with
            | nil => rfl
            | cons w ws =>
              rw [hsc] at hWh
              have hwne : w ≠ '/' := by
                intro hww
                subst hww
                rw [← hWh] at hresth
                simp at hresth
              simp [begins, Ne.symm hwne]
        · simp [hc0]

theorem scanStep_block_none {cs2 : List Char} (h : findBlockEnd cs2 = none) :
    scanStep ('/' :: '*' :: cs2) = some (.plain '/' ('*' :: cs2)) := by
  rw [scanStep_cons, if_neg (by decide), if_pos (by simp [begins])]
  simp only [List.drop_succ_cons, List.drop_zero]
  rw [h]

theorem scanStep_slash_other {cs : List Char}
    (h1 : begins ['*'] cs = false) (h2 : begins ['/'] cs = false) :
    scanStep ('/' :: cs) = some (.plain '/' cs) := by
  rw [scanStep_cons, if_neg (by decide), if_neg (by simp [h1]), if_neg (by simp [h2])]

theorem scanStep_plain_conds {c : Char} {rest : List Char}
    (h : scanStep (c :: rest) = some (.plain c rest)) :
    ((c = dquote ∨ c = squote) → findCloseQ c c rest = none) ∧
      (c = '/' → begins ['*'] rest = true → findBlockEnd (rest.drop 1) = none) ∧
      (c = '/' → begins ['/'] rest = true → lineCommentEnd (rest.drop 1) = none) := by
  rw [scanStep_cons] at h
  refine ⟨?_, ?_, ?_⟩
  · intro hq
    have hcond : (c = dquote || c = squote) = true := by
      rcases hq with rfl | rfl <;> simp
    rw [if_pos hcond] at h
    cases hfc : findCloseQ c c rest with
    | none => rfl
    | some p =>
      obtain ⟨b0, r0⟩ := p
      rw [hfc] at h
      simp at h
  · intro hc hb
    subst hc
    rw [if_neg (by decide), if_pos (by simp [hb])] at h
    cases hfb : findBlockEnd (rest.drop 1) with
    | none => rfl
    | some r =>
      rw [hfb] at h
      simp at h
  · intro hc hb
    subst hc
    obtain ⟨t, rfl⟩ := begins_single.mp hb
    rw [if_neg (by decide), if_neg (by simp [begins]), if_pos (by simp [begins])] at h
    cases hlc : lineCommentEnd (('/' :: t).drop 1) with
    | none => rfl
    | some r =>
      rw [hlc] at h
      simp at h

theorem dropWhile_head_not {p : Char → Bool} :
    ∀ {l : List Char} {c : Char} {cs : List Char},
      l.dropWhile p = c :: cs → p c = false := by
  intro l
  induction l with
  | nil => intro c cs h; simp at h
  | cons d l' ih =>
    intro c cs h
    rw [List.dropWhile_cons] at h
    by_cases hd : p d = true
    · rw [if_pos hd] at h
      exact ih h
    · rw [if_neg hd] at h
      injection h with h1 h2
      rw [← h1]
      cases hb : p d with
      | false => rfl
      | true => exact absurd hb hd

theorem lineCommentEnd_none_cr {cs : List Char} (h : lineCommentEnd cs = none) :
    '\r' ∈ cs := by
  unfold lineCommentEnd at h
  by_cases h0 : cs.dropWhile (fun c => !(c = '\n' || c = '\r')) = []
  · rw [if_pos h0] at h
    simp at h
  · rw [if_neg h0] at h
    cases hdw : cs.dropWhile (fun c => !(c = '\n' || c = '\r')) with
    | nil => exact absurd hdw h0
    | cons d ds =>
      rw [hdw] at h
      by_cases h1 : d = '\n'
      · subst h1
        rw [if_pos (by simp)] at h
        simp at h
      · have hpd := dropWhile_head_not hdw
        have hdr : d = '\r' := by
          have h2 : ¬d = '\n' → d = '\r' := by simpa using hpd
          exact h2 h1
        subst hdr
        have : '\r' ∈ cs.dropWhile (fun c => !(c = '\n' || c = '\r')) := by
          rw [hdw]
          exact List.mem_cons_self _ _
        have hsplit := List.takeWhile_append_dropWhile
          (fun c => !(c = '\n' || c = '\r')) cs
        rw [← hsplit]
        exact List.mem_append_right _ this

/-!  ## Claim C6  -/

/-- C6 counterexample: comment stripping is not idempotent on every input.
In `//a/*\r*/\nz` the line-comment alternative fails on the first pass (its
`[^\r\n]*$` match is blocked by the carriage return), the block comment
`/*\r*/` is removed, and the output `//a\nz` now contains a line comment that
a second pass removes: stripping twice gives `\nz`, not `//a\nz`. -/
theorem c6_idempotence_counterexample :
    stripC ("//a/*\r*/\nz".toList) = "//a\nz".toList ∧
      stripC (stripC ("//a/*\r*/\nz".toList)) = "\nz".toList ∧
      stripC (stripC ("//a/*\r*/\nz".toList)) ≠ stripC ("//a/*\r*/\nz".toList) := by
  refine ⟨rfl, rfl, ?_⟩
  intro h
  have : ("\nz".toList : List Char) = "//a\nz".toList := by
    calc ("\nz".toList : List Char)
        = stripC (stripC ("//a/*\r*/\nz".toList)) := rfl
      _ = stripC ("//a/*\r*/\nz".toList) := h
      _ = "//a\nz".toList := rfl
  simp at this

/-- C6 (corrected): comment stripping is idempotent on every input that
contains no carriage-return character.  (On CR-free text a `//` always
matches to the end of its line, a removal can never glue a new `*/` or `//`
into existence, and preserved quoted runs re-match identically, so a second
pass finds nothing new to do.) -/
theorem c6_strip_idempotent_amended :
    ∀ {l : List Char}, '\r' ∉ l → stripC (stripC l) = stripC l := by
  suffices hstep : ∀ (n : Nat) (l : List Char), l.length ≤ n → '\r' ∉ l →
      stripC (stripC l) = stripC l by
    intro l
    exact hstep l.length l le_rfl
  intro n
  induction n with
  | zero =>
    intro l hl hcr
    obtain rfl : l = [] := List.length_eq_zero.mp (Nat.le_zero.mp hl)
    rw [stripC_nil, stripC_nil]
  | succ n ih =>
    intro l hl hcr
    cases hss : scanStep l with
    | none =>
      obtain rfl := scanStep_eq_none_iff.mp hss
      rw [stripC_nil, stripC_nil]
    | some s =>
      cases s with
      | quoteRun q0 body rest =>
        obtain ⟨hq0, hleq, hfc⟩ := scanStep_quoteRun_inv hss
        have hcrrest : '\r' ∉ rest := by
          intro hm
          rw [hleq] at hcr
          exact hcr (List.mem_cons_of_mem _
            (List.mem_append_right _ (List.mem_cons_of_mem _ hm)))
        have hIH : stripC (stripC rest) = stripC rest := by
          refine ih rest ?_ hcrrest
          rw [hleq] at hl
          simp only [List.length_cons, List.length_append] at hl
          omega
        have hfc2 : findCloseQ q0 q0 (body ++ q0 :: stripC rest) =
            some (body, stripC rest) := findCloseQ_rebuild hfc _
        have hss2 : scanStep (q0 :: (body ++ q0 :: stripC rest)) =
            some (.quoteRun q0 body (stripC rest)) := scanStep_quote_some hq0 hfc2
        rw [stripC_of_quoteRun hss]
        rw [show (q0 :: body ++ q0 :: stripC rest) =
          q0 :: (body ++ q0 :: stripC rest) from rfl]
        rw [stripC_of_quoteRun hss2, hIH]
        simp
      | comment rest =>
        have hcrrest : '\r' ∉ rest := by
          intro hm
          apply hcr
          rcases scanStep_comment_inv hss with ⟨cs2, rfl, hfb⟩ | ⟨cs2, rfl, hlc⟩
          · obtain ⟨m, rfl⟩ := findBlockEnd_some_structure hfb
            exact List.mem_cons_of_mem _ (List.mem_cons_of_mem _
              (List.mem_append_right _ (List.mem_cons_of_mem _ (List.mem_cons_of_mem _ hm))))
          · obtain ⟨body, rfl, -⟩ := lineCommentEnd_structure hlc
            exact List.mem_cons_of_mem _ (List.mem_cons_of_mem _
              (List.mem_append_right _ hm))
        rw [stripC_of_comment hss]
        refine ih rest ?_ hcrrest
        have := scanStep_rest_length hss
        simp only [stepRest] at this
        omega
      | plain c0 rest =>
        have hleq := scanStep_plain_inv hss
        subst hleq
        have hcrrest : '\r' ∉ rest := fun hm => hcr (List.mem_cons_of_mem _ hm)
        have hIH : stripC (stripC rest) = stripC rest := by
          refine ih rest ?_ hcrrest
          simp only [List.length_cons] at hl
          omega
        have conds := scanStep_plain_conds hss
        have hplain2 : scanStep (c0 :: stripC rest) = some (.plain c0 (stripC rest)) := by
          by_cases hq : c0 = dquote ∨ c0 = squote
          · have hfcn : findCloseQ c0 c0 rest = none := conds.1 hq
            exact scanStep_quote_none hq (stripC_findCloseQ_none hq hfcn)
          · push_neg at hq
            by_cases hcs : c0 = '/'
            · subst hcs
              have hresthead : rest.head? ≠ some '/' := by
                intro hh
                cases rest with
                | nil => simp at hh
                | cons r0 cs2 =>
                  obtain rfl : r0 = '/' := by simpa using hh
                  have hlcn := conds.2.2 rfl (by simp [begins])
                  have : '\r' ∈ cs2 := lineCommentEnd_none_cr (by simpa using hlcn)
                  exact hcrrest (List.mem_cons_of_mem _ this)
              rcases stripC_head_not_slash hresthead with hW0 | hWh
              · rw [hW0]
                rfl
              · cases rest with
                | nil =>
                  rw [stripC_nil]
                  rfl
                | cons r0 cs2 =>
                  by_cases hr0 : r0 = '*'
                  · subst hr0
                    have hfbn : findBlockEnd cs2 = none := by
                      have := conds.2.1 rfl (by simp [begins])
                      simpa using this
                    have hcr2 : '\r' ∉ cs2 :=
                      fun hm => hcrrest (List.mem_cons_of_mem _ hm)
                    have hWeq : stripC ('*' :: cs2) = '*' :: stripC cs2 :=
                      stripC_of_plain (scanStep_plain_of cs2
                        (by decide) (by decide) (by decide))
                    rw [hWeq]
                    exact scanStep_block_none (findBlockEnd_none_iff.mpr
                      (stripC_hasSS_false hcr2 (findBlockEnd_none_iff.mp hfbn)))
                  · have hr0' : r0 ≠ '/' := by
                      intro hh
                      exact hresthead (by rw [hh]; rfl)
                    have hb1 : begins ['*'] (stripC (r0 :: cs2)) = false := by
                      cases hsc : stripC (r0 :: cs2) with
                      | nil => rfl
                      | cons w0 ws0 =>
                        rw [hsc] at hWh
                        have hw : w0 = r0 := by simpa using hWh
                        subst hw
                        simp [begins, Ne.symm hr0]
                    have hb2 : begins ['/'] (stripC (r0 :: cs2)) = false := by
                      cases hsc : stripC (r0 :: cs2) with
                      | nil => rfl
                      | cons w0 ws0 =>
                        rw [hsc] at hWh
                        have hw : w0 = r0 := by simpa using hWh
                        subst hw
                        simp [begins, Ne.symm hr0']
                    exact scanStep_slash_other hb1 hb2
            · exact scanStep_plain_of _ hq.1 hq.2 hcs
        rw [stripC_of_plain hss, stripC_of_plain hplain2, hIH]

/-- Witness for C6 (amended) at a CR-free input mixing quotes and both
comment forms. -/
theorem c6_witness :
    stripC (stripC ("a // b\n\"c//d\" /* e */ f".toList)) =
      stripC ("a // b\n\"c//d\" /* e */ f".toList) :=
  c6_strip_idempotent_amended (by decide)

/-!  ## Lemmas on whitespace splitting and joining (for claim C8)  -/

theorem takeWhile_append_stop {p : Char → Bool} {x : Char} (u v : List Char)
    (hx : p x = false) : ((u ++ x :: v).takeWhile p) = u.takeWhile p := by
  induction u with
  | nil => simp [List.takeWhile_cons, hx]
  | cons c u' ih =>
    cases hc : p c with
    | true => simp [List.takeWhile_cons, hc, ih]
    | false => simp [List.takeWhile_cons, hc]

theorem dropWhile_append_stop {p : Char → Bool} {x : Char} (u v : List Char)
    (hx : p x = false) : ((u ++ x :: v).dropWhile p) = u.dropWhile p ++ x :: v := by
  induction u with
  | nil => simp [List.dropWhile_cons, hx]
  | cons c u' ih =>
    cases hc : p c with
    | true => simp [List.dropWhile_cons, hc, ih]
    | false => simp [List.dropWhile_cons, hc]

theorem takeWhile_all {p : Char → Bool} {l : List Char}
    (h : ∀ c ∈ l, p c = true) : l.takeWhile p = l := by
  induction l with
  | nil => rfl
  | cons c l' ih =>
    rw [List.takeWhile_cons, if_pos (h c (List.mem_cons_self _ _))]
    rw [ih (fun c hc => h c (List.mem_cons_of_mem _ hc))]

theorem dropWhile_all {p : Char → Bool} {l : List Char}
    (h : ∀ c ∈ l, p c = true) : l.dropWhile p = [] := by
  induction l with
  | nil => rfl
  | cons c l' ih =>
    rw [List.dropWhile_cons, if_pos (h c (List.mem_cons_self _ _))]
    exact ih (fun c hc => h c (List.mem_cons_of_mem _ hc))

theorem pySplitWs_single {t : List Char} (ht : t ≠ [])
    (hs : ∀ c ∈ t, pySpace c = false) : pySplitWs t = [t] := by
  cases t with
  | nil => exact absurd rfl ht
  | cons c t' =>
    rw [pySplitWs_cons_tok t' (hs c (List.mem_cons_self _ _))]
    rw [takeWhile_all (by intro d hd; simp [hs d hd]),
      dropWhile_all (by intro d hd; simp [hs d hd])]
    rfl

theorem pySplitWs_append_space (u v : List Char) :
    pySplitWs (u ++ ' ' :: v) = pySplitWs u ++ pySplitWs v := by
  suffices h : ∀ (n : Nat) (u : List Char), u.length ≤ n →
      pySplitWs (u ++ ' ' :: v) = pySplitWs u ++ pySplitWs v by
    exact h u.length u le_rfl
  intro n
  induction n with
  | zero =>
    intro u hu
    obtain rfl : u = [] := List.length_eq_zero.mp (Nat.le_zero.mp hu)
    rw [pySplitWs_nil, List.nil_append, List.nil_append,
      pySplitWs_cons_space v (by decide)]
  | succ n ih =>
    intro u hu
    cases u with
    | nil =>
      rw [pySplitWs_nil, List.nil_append, List.nil_append,
        pySplitWs_cons_space v (by decide)]
    | cons c u' =>
      simp only [List.length_cons] at hu
      cases hc : pySpace c with
      | true =>
        rw [List.cons_append, pySplitWs_cons_space _ hc, pySplitWs_cons_space _ hc]
        exact ih u' (by omega)
      | false =>
        rw [List.cons_append, pySplitWs_cons_tok _ hc]
        rw [show (c :: (u' ++ ' ' :: v)) = ((c :: u') ++ ' ' :: v) from rfl]
        rw [takeWhile_append_stop _ _ (by decide), dropWhile_append_stop _ _ (by decide)]
        rw [pySplitWs_cons_tok _ hc]
        have hd : ((c :: u').dropWhile (fun d => !pySpace d)).length ≤ n := by
          rw [List.dropWhile_cons_of_pos (by simp [hc])]
          have := length_dropWhile_le' (fun d => !pySpace d) u'
          omega
        rw [ih _ hd]
        rfl

/-- Characters of `" ".join(ts)` are spaces or characters of elements. -/
theorem mem_pyJoin_space {c : Char} : ∀ {ts : List (List Char)},
    c ∈ pyJoin [' '] ts → c = ' ' ∨ ∃ t ∈ ts, c ∈ t := by
  intro ts
  induction ts with
  | nil => intro h; simp [pyJoin] at h
  | cons t rest ih =>
    intro h
    cases rest with
    | nil => exact Or.inr ⟨t, List.mem_cons_self _ _, by simpa [pyJoin] using h⟩
    | cons r rs =>
      rw [show pyJoin [' '] (t :: r :: rs) = t ++ [' '] ++ pyJoin [' '] (r :: rs) from rfl] at h
      rcases List.mem_append.mp h with h1 | h2
      · rcases List.mem_append.mp h1 with h3 | h4
        · exact Or.inr ⟨t, List.mem_cons_self _ _, h3⟩
        · exact Or.inl (by simpa using h4)
      · rcases ih h2 with h5 | ⟨t', ht', hc⟩
        · exact Or.inl h5
        · exact Or.inr ⟨t', List.mem_cons_of_mem _ ht', hc⟩

theorem breakSep_cons_skip {sep : List Char} {c : Char} {l : List Char}
    (h : begins sep (c :: l) = false) :
    breakSep sep (c :: l) = (breakSep sep l).map (fun p => (c :: p.1, p.2)) := by
  rw [breakSep, if_neg (by simp [h])]

theorem breakSep_here {sep : List Char} (hsep : sep ≠ []) (b : List Char) :
    breakSep sep (sep ++ b) = some ([], b) := by
  cases sep with
  | nil => exact absurd rfl hsep
  | cons s ss =>
    rw [show ((s :: ss) ++ b) = s :: (ss ++ b) from rfl, breakSep,
      if_pos (by exact begins_append (s :: ss) b)]
    simp [List.drop_left']

theorem breakSep_skip_front {ss : List Char} :
    ∀ {a l : List Char}, (∀ c ∈ a, c ≠ ' ') →
      breakSep (' ' :: ss) (a ++ l) =
        (breakSep (' ' :: ss) l).map (fun p => (a ++ p.1, p.2)) := by
  intro a
  induction a with
  | nil =>
    intro l h
    cases hbk : breakSep (' ' :: ss) l <;> simp [hbk]
  | cons c a' ih =>
    intro l h
    have hc : c ≠ ' ' := h c (List.mem_cons_self _ _)
    rw [List.cons_append,
      breakSep_cons_skip (by simp [begins, Ne.symm hc]),
      ih (fun d hd => h d (List.mem_cons_of_mem _ hd))]
    cases hbk : breakSep (' ' :: ss) l <;> simp [hbk]

theorem okTokChar_spec {c : Char} (h : okTokChar c = true) :
    pySpace c = false ∧ c ≠ ' ' ∧ c ≠ ':' ∧ c ≠ '-' ∧ c ≠ '>' := by
  simp only [okTokChar, Bool.and_eq_true, Bool.not_eq_true', decide_eq_true_eq] at h
  obtain ⟨⟨⟨h1, h2⟩, h3⟩, h4⟩ := h
  refine ⟨h1, ?_, h2, h3, h4⟩
  intro hc
  subst hc
  exact absurd h1 (by decide)

theorem splitWs_join_close :
    ∀ (ts : List (List Char)), ts ≠ [] →
      (∀ t ∈ ts, t ≠ [] ∧ ∀ c ∈ t, pySpace c = false) →
      pySplitWs (pyJoin [' '] ts ++ [')']) ≠ [] ∧
        pyJoin [' '] (pySplitWs (pyJoin [' '] ts ++ [')'])) = pyJoin [' '] ts ++ [')'] := by
  intro ts
  induction ts with
  | nil => intro h; exact absurd rfl h
  | cons t rest ih =>
    intro hne hall
    cases rest with
    | nil =>
      obtain ⟨htne, hts⟩ := hall t (List.mem_cons_self _ _)
      have hsingle : pySplitWs (t ++ [')']) = [t ++ [')']] := by
        refine pySplitWs_single (by simp) ?_
        intro c hc
        rcases List.mem_append.mp hc with h1 | h2
        · exact hts c h1
        · obtain rfl : c = ')' := by simpa using h2
          decide
      rw [show pyJoin [' '] [t] = t from rfl, hsingle]
      exact ⟨by simp, rfl⟩
    | cons r rs =>
      obtain ⟨htne, hts⟩ := hall t (List.mem_cons_self _ _)
      have hJ : pyJoin [' '] (t :: r :: rs) = t ++ ' ' :: pyJoin [' '] (r :: rs) := by
        show t ++ [' '] ++ pyJoin [' '] (r :: rs) = _
        simp
      rw [hJ]
      have ihr := ih (by simp) (fun x hx => hall x (List.mem_cons_of_mem _ hx))
      rw [show (t ++ ' ' :: pyJoin [' '] (r :: rs)) ++ [')'] =
        t ++ ' ' :: (pyJoin [' '] (r :: rs) ++ [')']) from by simp]
      rw [pySplitWs_append_space, pySplitWs_single htne hts]
      obtain ⟨hW, hWj⟩ := ihr
      constructor
      · simp
      · cases hw : pySplitWs (pyJoin [' '] (r :: rs) ++ [')']) with
        | nil => exact absurd hw hW
        | cons w ws =>
          rw [hw] at hWj
          show t ++ [' '] ++ pyJoin [' '] (w :: ws) = _
          rw [hWj]
          simp

theorem splitWs_join_paren (ts : List (List Char)) (hne : ts ≠ [])
    (hall : ∀ t ∈ ts, t ≠ [] ∧ ∀ c ∈ t, pySpace c = false) :
    pyJoin [' '] (pySplitWs ('(' :: pyJoin [' '] ts ++ [')'])) =
      '(' :: pyJoin [' '] ts ++ [')'] := by
  cases ts with
  | nil => exact absurd rfl hne
  | cons t rest =>
    obtain ⟨htne, hts⟩ := hall t (List.mem_cons_self _ _)
    cases rest with
    | nil =>
      have hsingle : pySplitWs ('(' :: t ++ [')']) = ['(' :: t ++ [')']] := by
        refine pySplitWs_single (by simp) ?_
        intro c hc
        have hc' : c = '(' ∨ c ∈ t ∨ c = ')' := by simpa using hc
        rcases hc' with rfl | h2 | rfl
        · decide
        · exact hts c h2
        · decide
      rw [show pyJoin [' '] [t] = t from rfl, hsingle]
      rfl
    | cons r rs =>
      have hJ : pyJoin [' '] (t :: r :: rs) = t ++ ' ' :: pyJoin [' '] (r :: rs) := by
        show t ++ [' '] ++ pyJoin [' '] (r :: rs) = _
        simp
      rw [hJ]
      rw [show ('(' :: (t ++ ' ' :: pyJoin [' '] (r :: rs)) ++ [')']) =
        ('(' :: t) ++ ' ' :: (pyJoin [' '] (r :: rs) ++ [')']) from by simp]
      rw [pySplitWs_append_space]
      have hsingle : pySplitWs ('(' :: t) = ['(' :: t] := by
        refine pySplitWs_single (by simp) ?_
        intro c hc
        rcases List.mem_cons.mp hc with rfl | h2
        · decide
        · exact hts c h2
      rw [hsingle]
      obtain ⟨hW, hWj⟩ := splitWs_join_close (r :: rs) (by simp)
        (fun x hx => hall x (List.mem_cons_of_mem _ hx))
      cases hw : pySplitWs (pyJoin [' '] (r :: rs) ++ [')']) with
      | nil => exact absurd hw hW
      | cons w ws =>
        rw [hw] at hWj
        show ('(' :: t) ++ [' '] ++ pyJoin [' '] (w :: ws) = _
        rw [hWj]
        simp

theorem breakSep_space_tok {t r : List Char} (ht : ∀ c ∈ t, c ≠ ' ') :
    breakSep [' '] (t ++ ' ' :: r) = some (t, r) := by
  have h := @breakSep_skip_front [] t (' ' :: r) ht
  have h2 : breakSep [' '] (' ' :: r) = some ([], r) := breakSep_here (by simp) r
  rw [h2] at h
  simpa using h

theorem pySplitOn_space_join :
    ∀ (ts : List (List Char)), ts ≠ [] → (∀ t ∈ ts, ∀ c ∈ t, c ≠ ' ') →
      pySplitOn [' '] (pyJoin [' '] ts) = ts := by
  intro ts
  induction ts with
  | nil => intro h; exact absurd rfl h
  | cons t rest ih =>
    intro hne hall
    cases rest with
    | nil =>
      rw [show pyJoin [' '] [t] = t from rfl]
      exact pySplitOn_of_none (by simp)
        (breakSep_none_of_not_mem (List.mem_singleton_self _)
          (fun hm => hall t (List.mem_cons_self _ _) ' ' hm rfl))
    | cons r rs =>
      rw [show pyJoin [' '] (t :: r :: rs) = t ++ ' ' :: pyJoin [' '] (r :: rs) from by
        show t ++ [' '] ++ pyJoin [' '] (r :: rs) = _
        simp]
      rw [pySplitOn_of_some (by simp)
        (breakSep_space_tok (hall t (List.mem_cons_self _ _)))]
      rw [ih (by simp) (fun x hx => hall x (List.mem_cons_of_mem _ hx))]

theorem sepDecl_eq : sepDecl = ' ' :: [':', ':', '=', ' '] := rfl

theorem sepTyName_eq : sepTyName = ' ' :: ['-', ' '] := rfl

theorem sepCall_eq : sepCall = ' ' :: ['-', '>', ' '] := rfl

theorem sepParen_eq : sepParen = ' ' :: ['('] := rfl

theorem breakSep_clean_spacehead {ss : List Char} (a b : List Char)
    (ha : ∀ c ∈ a, c ≠ ' ') :
    breakSep (' ' :: ss) (a ++ ((' ' :: ss) ++ b)) = some (a, b) := by
  rw [breakSep_skip_front ha]
  have h2 : breakSep (' ' :: ss) ((' ' :: ss) ++ b) = some ([], b) :=
    breakSep_here (by simp) b
  rw [h2]
  simp

theorem breakSep_decl_line (vt vn X : List Char)
    (hvt : ∀ c ∈ vt, c ≠ ' ') (hvn : ∀ c ∈ vn, c ≠ ' ')
    (hvne : vn ≠ []) (hvncolon : ∀ c ∈ vn, c ≠ ':') :
    breakSep sepDecl (vt ++ (sepTyName ++ (vn ++ (sepDecl ++ X)))) =
      some (vt ++ (sepTyName ++ vn), X) := by
  rw [sepDecl_eq, breakSep_skip_front hvt]
  have hmid : breakSep (' ' :: [':', ':', '=', ' '])
      (sepTyName ++ (vn ++ ((' ' :: [':', ':', '=', ' ']) ++ X))) =
      some (sepTyName ++ vn, X) := by
    rw [sepTyName_eq]
    rw [show ((' ' :: ['-', ' ']) ++ (vn ++ ((' ' :: [':', ':', '=', ' ']) ++ X))) =
      ' ' :: '-' :: ' ' :: (vn ++ ((' ' :: [':', ':', '=', ' ']) ++ X)) from rfl]
    rw [breakSep_cons_skip (by simp [begins])]
    rw [breakSep_cons_skip (by simp [begins])]
    have hb3 : begins (' ' :: [':', ':', '=', ' '])
        (' ' :: (vn ++ ((' ' :: [':', ':', '=', ' ']) ++ X))) = false := by
      cases vn with
      | nil => exact absurd rfl hvne
      | cons v vn' =>
        have hv : v ≠ ':' := hvncolon v (List.mem_cons_self _ _)
        simp [begins, Ne.symm hv]
    rw [breakSep_cons_skip hb3]
    rw [breakSep_clean_spacehead vn X hvn]
    rfl
  rw [hmid]
  rfl

theorem extractArgs_paren (cn : List Char) (ts : List (List Char))
    (hcn : okTok cn) (hne : ts ≠ []) (hts : ∀ t ∈ ts, okTok t)
    (hnp : ts ≠ [['(', ')']]) :
    extractArgs (cn ++ (sepParen ++ (pyJoin [' '] ts ++ [')']))) = ts := by
  have hcnsp : ∀ c ∈ cn, pySpace c = false :=
    fun c hc => (okTokChar_spec (hcn.2 c hc)).1
  have htssp : ∀ t ∈ ts, t ≠ [] ∧ ∀ c ∈ t, pySpace c = false :=
    fun t ht => ⟨(hts t ht).1, fun c hc => (okTokChar_spec ((hts t ht).2 c hc)).1⟩
  have hX : (cn ++ (sepParen ++ (pyJoin [' '] ts ++ [')']))) =
      cn ++ ' ' :: ('(' :: (pyJoin [' '] ts ++ [')'])) := rfl
  have h1 : pySplitWs (cn ++ (sepParen ++ (pyJoin [' '] ts ++ [')']))) =
      cn :: pySplitWs ('(' :: (pyJoin [' '] ts ++ [')'])) := by
    rw [hX, pySplitWs_append_space, pySplitWs_single hcn.1 hcnsp]
    rfl
  have h2 : pyJoin [' '] (pySplitWs ('(' :: (pyJoin [' '] ts ++ [')']))) =
      '(' :: pyJoin [' '] ts ++ [')'] := by
    have := splitWs_join_paren ts hne htssp
    simpa using this
  have hJne : pyJoin [' '] ts ≠ ['(', ')'] := by
    intro hJ
    cases ts with
    | nil => exact absurd rfl hne
    | cons t rest =>
      cases rest with
      | nil => exact hnp (by simpa [pyJoin] using congrArg (fun x => [x]) hJ)
      | cons r rs =>
        have hsp : ' ' ∈ pyJoin [' '] (t :: r :: rs) := by
          show ' ' ∈ t ++ [' '] ++ pyJoin [' '] (r :: rs)
          simp
        rw [hJ] at hsp
        simp at hsp
  have hJnl : pyJoin [' '] ts ≠ ['(', ')', '\n'] := by
    intro hJ
    have hnl : '\n' ∈ pyJoin [' '] ts := by rw [hJ]; simp
    rcases mem_pyJoin_space hnl with h | ⟨t, ht, hc⟩
    · exact absurd h (by decide)
    · have := (htssp t ht).2 '\n' hc
      exact absurd this (by decide)
  have htsnospace : ∀ t ∈ ts, ∀ c ∈ t, c ≠ ' ' :=
    fun t ht c hc => (okTokChar_spec ((hts t ht).2 c hc)).2.1
  simp only [extractArgs, h1, List.drop_succ_cons, List.drop_zero, h2]
  rw [if_neg (by simp)]
  rw [show sliceMid ('(' :: pyJoin [' '] ts ++ [')']) = pyJoin [' '] ts from by
    simp [sliceMid]]
  rw [show subEmptyParens (pyJoin [' '] ts) = pyJoin [' '] ts from by
    rw [subEmptyParens, if_neg hJne, if_neg hJnl]]
  exact pySplitOn_space_join ts hne htsnospace

/-!  ## Claim C8  -/

/-- C8 counterexample: the claim's invariants fail on the code.  The line
` -> go (a,b)` is classified as an Invoke whose receiver is the *empty*
string (everything left of the first ` -> `), and whose single argument
`a,b` contains a comma (arguments are split on spaces, not commas). -/
theorem c8_invariants_counterexample :
    normalize (" -> go (a,b)".toList) =
      .ok [.invoke [] ("go".toList) [("a,b".toList)]] ∧
      ',' ∈ ("a,b".toList) := by
  exact ⟨rfl, by decide⟩

/-- C8 (corrected): what survives of the invariants is source-order
preservation.  For well-formed fields (non-empty, free of whitespace and of
the marker characters `:`, `-`, `>`) and a non-empty list of well-formed
argument tokens, a Construct line and an Invoke line built from them classify
to exactly the intended statements, with `args` equal to the token list in
source order.  (Non-emptiness of `var_name`/`receiver` and comma-freeness of
arguments are *not* guaranteed by the code — see the counterexample.) -/
theorem c8_args_source_order_amended
    (vt vn cn rcv mn : List Char) (ts : List (List Char))
    (hvt : okTok vt) (hvn : okTok vn) (hcn : okTok cn)
    (hrcv : okTok rcv) (hmn : okTok mn)
    (hne : ts ≠ []) (hts : ∀ t ∈ ts, okTok t) (hnp : ts ≠ [['(', ')']]) :
    classifyLine (vt ++ (sepTyName ++ (vn ++ (sepDecl ++
        (cn ++ (sepParen ++ (pyJoin [' '] ts ++ [')']))))))) =
      LineResult.stmt (.construct vt vn cn ts) ∧
    classifyLine (rcv ++ (sepCall ++ (mn ++ (sepParen ++
        (pyJoin [' '] ts ++ [')']))))) =
      LineResult.stmt (.invoke rcv mn ts) := by
  have spec : ∀ {t : List Char}, okTok t → ∀ c ∈ t,
      pySpace c = false ∧ c ≠ ' ' ∧ c ≠ ':' ∧ c ≠ '-' ∧ c ≠ '>' :=
    fun h c hc => okTokChar_spec (h.2 c hc)
  have hvtns : ∀ c ∈ vt, c ≠ ' ' := fun c hc => (spec hvt c hc).2.1
  have hvnns : ∀ c ∈ vn, c ≠ ' ' := fun c hc => (spec hvn c hc).2.1
  have hcnns : ∀ c ∈ cn, c ≠ ' ' := fun c hc => (spec hcn c hc).2.1
  have hrcvns : ∀ c ∈ rcv, c ≠ ' ' := fun c hc => (spec hrcv c hc).2.1
  have hmnns : ∀ c ∈ mn, c ≠ ' ' := fun c hc => (spec hmn c hc).2.1
  have hRmem : ∀ c, c ∈ pyJoin [' '] ts ++ [')'] →
      c = ' ' ∨ c = ')' ∨ ∃ t ∈ ts, c ∈ t := by
    intro c hc
    rcases List.mem_append.mp hc with h | h
    · rcases mem_pyJoin_space h with h | h
      · exact Or.inl h
      · exact Or.inr (Or.inr h)
    · exact Or.inr (Or.inl (by simpa using h))
  have hXmem : ∀ (u : List Char), (∀ c ∈ u, c ≠ ' ') → ∀ c,
      c ∈ u ++ (sepParen ++ (pyJoin [' '] ts ++ [')'])) →
      c ∈ u ∨ c = ' ' ∨ c = '(' ∨ c = ')' ∨ ∃ t ∈ ts, c ∈ t := by
    intro u hu c hc
    rcases List.mem_append.mp hc with h | h
    · exact Or.inl h
    · rcases List.mem_append.mp h with h | h
      · have h2 : c = ' ' ∨ c = '(' := by simpa [sepParen_eq] using h
        rcases h2 with h2 | h2
        · exact Or.inr (Or.inl h2)
        · exact Or.inr (Or.inr (Or.inl h2))
      · rcases hRmem c h with h2 | h2 | h2
        · exact Or.inr (Or.inl h2)
        · exact Or.inr (Or.inr (Or.inr (Or.inl h2)))
        · exact Or.inr (Or.inr (Or.inr (Or.inr h2)))
  have hColonX : ':' ∉ cn ++ (sepParen ++ (pyJoin [' '] ts ++ [')'])) := by
    intro h
    rcases hXmem cn hcnns ':' h with h | h | h | h | ⟨t, ht, hc⟩
    · exact (spec hcn ':' h).2.2.1 rfl
    · exact absurd h (by decide)
    · exact absurd h (by decide)
    · exact absurd h (by decide)
    · exact (spec (hts t ht) ':' hc).2.2.1 rfl
  have hDashB : '-' ∉ vn ++ (sepDecl ++
      (cn ++ (sepParen ++ (pyJoin [' '] ts ++ [')'])))) := by
    intro h
    rcases List.mem_append.mp h with h | h
    · exact (spec hvn '-' h).2.2.2.1 rfl
    · rcases List.mem_append.mp h with h | h
      · simp [sepDecl_eq] at h
      · rcases hXmem cn hcnns '-' h with h | h | h | h | ⟨t, ht, hc⟩
        · exact (spec hcn '-' h).2.2.2.1 rfl
        · exact absurd h (by decide)
        · exact absurd h (by decide)
        · exact absurd h (by decide)
        · exact (spec (hts t ht) '-' hc).2.2.2.1 rfl
  have hbkDecl : breakSep sepDecl (vt ++ (sepTyName ++ (vn ++ (sepDecl ++
      (cn ++ (sepParen ++ (pyJoin [' '] ts ++ [')']))))))) =
      some (vt ++ (sepTyName ++ vn),
        cn ++ (sepParen ++ (pyJoin [' '] ts ++ [')']))) :=
    breakSep_decl_line vt vn _ hvtns hvnns hvn.1 (fun c hc => (spec hvn c hc).2.2.1)
  have hHasDecl : hasSub sepDecl (vt ++ (sepTyName ++ (vn ++ (sepDecl ++
      (cn ++ (sepParen ++ (pyJoin [' '] ts ++ [')']))))))) = true := by
    rw [hasSub, hbkDecl]
    rfl
  have hbkTy : breakSep sepTyName (vt ++ (sepTyName ++ (vn ++ (sepDecl ++
      (cn ++ (sepParen ++ (pyJoin [' '] ts ++ [')']))))))) =
      some (vt, vn ++ (sepDecl ++
        (cn ++ (sepParen ++ (pyJoin [' '] ts ++ [')']))))) := by
    have h := @breakSep_clean_spacehead ['-', ' '] vt
      (vn ++ (sepDecl ++ (cn ++ (sepParen ++ (pyJoin [' '] ts ++ [')']))))) hvtns
    rw [← sepTyName_eq] at h
    exact h
  have hSp1 : pySplitOn sepTyName (vt ++ (sepTyName ++ (vn ++ (sepDecl ++
      (cn ++ (sepParen ++ (pyJoin [' '] ts ++ [')']))))))) =
      [vt, vn ++ (sepDecl ++ (cn ++ (sepParen ++ (pyJoin [' '] ts ++ [')']))))] := by
    rw [pySplitOn_of_some (by decide) hbkTy,
      pySplitOn_of_none (by decide)
        (breakSep_none_of_not_mem (show '-' ∈ sepTyName by decide) hDashB)]
  have hSp2 : pySplitOn sepDecl (vt ++ (sepTyName ++ (vn ++ (sepDecl ++
      (cn ++ (sepParen ++ (pyJoin [' '] ts ++ [')']))))))) =
      [vt ++ (sepTyName ++ vn), cn ++ (sepParen ++ (pyJoin [' '] ts ++ [')']))] := by
    rw [pySplitOn_of_some (by decide) hbkDecl,
      pySplitOn_of_none (by decide)
        (breakSep_none_of_not_mem (show ':' ∈ sepDecl by decide) hColonX)]
  have hbkDeclb : breakSep sepDecl (vn ++ (sepDecl ++
      (cn ++ (sepParen ++ (pyJoin [' '] ts ++ [')']))))) =
      some (vn, cn ++ (sepParen ++ (pyJoin [' '] ts ++ [')']))) := by
    have h := @breakSep_clean_spacehead [':', ':', '=', ' '] vn
      (cn ++ (sepParen ++ (pyJoin [' '] ts ++ [')']))) hvnns
    rw [← sepDecl_eq] at h
    exact h
  have hbkParen : breakSep sepParen (cn ++ (sepParen ++ (pyJoin [' '] ts ++ [')']))) =
      some (cn, pyJoin [' '] ts ++ [')']) := by
    have h := @breakSep_clean_spacehead ['('] cn (pyJoin [' '] ts ++ [')']) hcnns
    rw [← sepParen_eq] at h
    exact h
  have hArgs := extractArgs_paren cn ts hcn hne hts hnp
  constructor
  · unfold classifyLine
    rw [if_pos hHasDecl, hSp1, hSp2]
    simp only [List.get?_cons_succ, List.get?_cons_zero]
    rw [pySplitOn_of_some (by decide) hbkDeclb, pySplitOn_of_some (by decide) hbkParen,
      hArgs]
    simp
  · have hColonLine : ':' ∉ rcv ++ (sepCall ++ (mn ++ (sepParen ++
        (pyJoin [' '] ts ++ [')'])))) := by
      intro h
      rcases List.mem_append.mp h with h | h
      · exact (spec hrcv ':' h).2.2.1 rfl
      · rcases List.mem_append.mp h with h | h
        · simp [sepCall_eq] at h
        · rcases hXmem mn hmnns ':' h with h | h | h | h | ⟨t, ht, hc⟩
          · exact (spec hmn ':' h).2.2.1 rfl
          · exact absurd h (by decide)
          · exact absurd h (by decide)
          · exact absurd h (by decide)
          · exact (spec (hts t ht) ':' hc).2.2.1 rfl
    have hGtRest : '>' ∉ mn ++ (sepParen ++ (pyJoin [' '] ts ++ [')'])) := by
      intro h
      rcases hXmem mn hmnns '>' h with h | h | h | h | ⟨t, ht, hc⟩
      · exact (spec hmn '>' h).2.2.2.2 rfl
      · exact absurd h (by decide)
      · exact absurd h (by decide)
      · exact absurd h (by decide)
      · exact (spec (hts t ht) '>' hc).2.2.2.2 rfl
    have hNoDecl : hasSub sepDecl (rcv ++ (sepCall ++ (mn ++ (sepParen ++
        (pyJoin [' '] ts ++ [')']))))) = false := by
      rw [hasSub,
        breakSep_none_of_not_mem (show ':' ∈ sepDecl by decide) hColonLine]
      rfl
    have hbkCall : breakSep sepCall (rcv ++ (sepCall ++ (mn ++ (sepParen ++
        (pyJoin [' '] ts ++ [')']))))) =
        some (rcv, mn ++ (sepParen ++ (pyJoin [' '] ts ++ [')']))) := by
      have h := @breakSep_clean_spacehead ['-', '>', ' '] rcv
        (mn ++ (sepParen ++ (pyJoin [' '] ts ++ [')']))) hrcvns
      rw [← sepCall_eq] at h
      exact h
    have hHasCall : hasSub sepCall (rcv ++ (sepCall ++ (mn ++ (sepParen ++
        (pyJoin [' '] ts ++ [')']))))) = true := by
      rw [hasSub, hbkCall]
      rfl
    have hSp5 : pySplitOn sepCall (rcv ++ (sepCall ++ (mn ++ (sepParen ++
        (pyJoin [' '] ts ++ [')']))))) =
        [rcv, mn ++ (sepParen ++ (pyJoin [' '] ts ++ [')']))] := by
      rw [pySplitOn_of_some (by decide) hbkCall,
        pySplitOn_of_none (by decide)
          (breakSep_none_of_not_mem (show '>' ∈ sepCall by decide) hGtRest)]
    have hbkParenM : breakSep sepParen (mn ++ (sepParen ++ (pyJoin [' '] ts ++ [')']))) =
        some (mn, pyJoin [' '] ts ++ [')']) := by
      have h := @breakSep_clean_spacehead ['('] mn (pyJoin [' '] ts ++ [')']) hmnns
      rw [← sepParen_eq] at h
      exact h
    have hArgsM := extractArgs_paren mn ts hmn hne hts hnp
    unfold classifyLine
    rw [if_neg (by simp [hNoDecl]), if_pos hHasCall, hSp5]
    simp only [List.get?_cons_succ, List.get?_cons_zero]
    rw [pySplitOn_of_some (by decide) hbkParenM, hArgsM]
    simp

/-- Witness for C8 (amended): the Construct line `T - m ::= C (x y)` and the
Invoke line `m -> go (x y)` classify to exactly the expected statements with
the arguments `x`, `y` in source order. -/
theorem c8_witness :
    classifyLine (("T".toList) ++ (sepTyName ++ (("m".toList) ++ (sepDecl ++
        (("C".toList) ++ (sepParen ++
          (pyJoin [' '] [("x".toList), ("y".toList)] ++ [')']))))))) =
      LineResult.stmt (.construct ("T".toList) ("m".toList) ("C".toList)
        [("x".toList), ("y".toList)]) ∧
    classifyLine (("m".toList) ++ (sepCall ++ (("go".toList) ++ (sepParen ++
        (pyJoin [' '] [("x".toList), ("y".toList)] ++ [')']))))) =
      LineResult.stmt (.invoke ("m".toList) ("go".toList)
        [("x".toList), ("y".toList)]) :=
  c8_args_source_order_amended ("T".toList) ("m".toList) ("C".toList)
    ("m".toList) ("go".toList) [("x".toList), ("y".toList)]
    (by decide) (by decide) (by decide) (by decide) (by decide)
    (by decide) (by decide) (by decide)

/-- Witness for C3 (amended) at the single-line input `x ::= y`. -/
theorem c3_witness :
    ∃ L, L ∈ (pySplitOn ['\n'] (stripC ("x ::= y".toList))).filter (fun l => l ≠ []) ∧
      classifyLine L = .indexError ∧
      (pySplitOn ['\n'] ("x ::= y".toList)).findIdx? (fun l => l = L) = some 0 :=
  c3_line_number_amended ("x ::= y".toList) 1 (by rfl)

end GG
